import Mathlib

/-!
Verification of the impact-analyzer core (module `github.com/laut0104/go-impact-analyzer`).

This file shallowly embeds the package dependency graph (`pkg/analyzer/graph.go`),
the impact resolver (`pkg/analyzer/analyzer.go`) and the resource extractor
(`internal/analyzer/extractor.go`) in Lean, and proves or refutes the
specification claims about them.

Modelling conventions:
* Go `map[string][]string` values are embedded as association lists built only
  through helpers that keep keys unique; Go map *iteration* order is
  non-deterministic, the embedding fixes insertion order (all proved statements
  about iteration results are order-insensitive set/membership statements).
* Go slices are Lean lists; `nil` slices are `[]`.
* Functions whose behaviour depends on the file system, the git repository or
  parsed Go ASTs (the `SymbolAnalyzer`, `DiffAnalyzer`, `DIAnalyzer` methods and
  `filepath.Rel`) are modelled as oracle fields of an `Env` record: they are
  inputs of a run, exactly as the files on disk are.  The in-source guard
  clauses of those methods (for example `CheckSymbolUsage` returning `false`
  for an empty symbol list) are embedded as wrappers around the oracles.
* The recursive traversal `collectAllDeps` (graph.go lines 91-101) mutates a
  shared visited set and result slice through pointers; the embedding
  `collect` passes that state explicitly and keeps the pending loop
  iterations as an explicit stack of frames, reproducing the exact traversal
  order; `collectAllDepsFuel` is the direct recursive shape with a fuel bound.
-/

namespace ImpactAnalyzer

/-! ## Dependency graph (`pkg/analyzer/graph.go`) -/

/-- `DependencyGraph.deps` embeds the Go field `deps map[string][]string`:
package path to the list of packages it depends on. -/
structure DependencyGraph where
  deps : List (String × List String)

/-- `GetDirectDeps` (graph.go lines 77-79): `return g.deps[pkgPath]`; a missing
key yields the `nil` slice, i.e. `[]`. -/
def GetDirectDeps (g : DependencyGraph) (pkgPath : String) : List String :=
  match g.deps.find? (fun e => e.1 == pkgPath) with
  | some e => e.2
  | none => []

/-- The keys of the dependency map (the packages recorded in the graph). -/
def graphNodes (g : DependencyGraph) : List String := g.deps.map Prod.fst

/-- Number of graph keys not yet in the visited set (termination measure). -/
def unvisitedCount (g : DependencyGraph) (visited : List String) : Nat :=
  ((graphNodes g).toFinset \ visited.toFinset).card

/-- Weight of the pending-work stack (termination measure). -/
def stackWeight (stack : List (List String)) : Nat :=
  stack.foldr (fun frame acc => 2 * frame.length + 1 + acc) 0

/-- `collectAllDeps` (graph.go lines 91-101) with the mutated
`visited map[string]bool` and `result *[]string` threaded explicitly.  Each
stack frame is the list of loop iterations (`for _, dep := range g.deps[pkgPath]`)
still pending in one recursive activation; the body appends `dep` to the
result *before* recursing, and the recursive call returns immediately when
`dep` is already visited. -/
def collect (g : DependencyGraph) :
    List (List String) → List String → List String → List String × List String
  | [], visited, result => (visited, result)
  | [] :: stack, visited, result => collect g stack visited result
  | (d :: ds) :: stack, visited, result =>
      if d ∈ visited then collect g (ds :: stack) visited (result ++ [d])
      else collect g (GetDirectDeps g d :: ds :: stack) (d :: visited) (result ++ [d])
termination_by stack visited _ => (unvisitedCount g visited, stackWeight stack)
decreasing_by
  · apply Prod.Lex.right
    simp [stackWeight]
  · apply Prod.Lex.right
    simp [stackWeight]
  · rename_i hmem
    by_cases hd : d ∈ graphNodes g
    · apply Prod.Lex.left
      apply Finset.card_lt_card
      constructor
      · apply Finset.sdiff_subset_sdiff (le_refl _)
        intro x hx
        simp only [List.toFinset_cons, Finset.mem_insert]
        exact Or.inr hx
      · intro hsub
        have hdmem : d ∈ (graphNodes g).toFinset \ visited.toFinset := by
          simp [List.mem_toFinset, hd, hmem]
        have := hsub hdmem
        simp [List.mem_toFinset] at this
    · have hdeps : GetDirectDeps g d = [] := by
        unfold GetDirectDeps
        cases hfind : g.deps.find? (fun e => e.1 == d) with
        | none => rfl
        | some e =>
          exfalso
          apply hd
          have hmem2 := List.mem_of_find?_eq_some hfind
          have heq := List.find?_some hfind
          simp at heq
          exact heq ▸ List.mem_map.mpr ⟨e, hmem2, rfl⟩
      have hcount : unvisitedCount g (d :: visited) = unvisitedCount g visited := by
        unfold unvisitedCount
        congr 1
        simp only [List.toFinset_cons]
        rw [Finset.sdiff_insert]
        apply Finset.erase_eq_of_not_mem
        intro hx
        rw [Finset.mem_sdiff, List.mem_toFinset] at hx
        exact hd hx.1
      rw [hcount, hdeps]
      apply Prod.Lex.right
      simp [stackWeight]
      omega

/-- `GetAllDeps` (graph.go lines 82-89): run `collectAllDeps(pkgPath, {}, [])`.
The Go call first marks `pkgPath` visited and then iterates its direct
dependencies, which is the state `collect` starts from here. -/
def GetAllDeps (g : DependencyGraph) (pkgPath : String) : List String :=
  (collect g [GetDirectDeps g pkgPath] [pkgPath] []).2

/-- The literal recursive shape of `collectAllDeps` (graph.go lines 91-101),
indexed by a fuel bound on the recursion depth: the recursion guard
`if visited[pkgPath] { return }` comes first, then the loop over
`g.deps[pkgPath]` appends each `dep` and recurses. -/
def collectAllDepsFuel (g : DependencyGraph) :
    Nat → String → List String → List String → List String × List String
  | 0, _, visited, result => (visited, result)
  | fuel + 1, pkgPath, visited, result =>
      if pkgPath ∈ visited then (visited, result)
      else
        (GetDirectDeps g pkgPath).foldl
          (fun vr dep => collectAllDepsFuel g fuel dep vr.1 (vr.2 ++ [dep]))
          (pkgPath :: visited, result)

/-- `ReachN g p q n`: `q` is reachable from `p` by exactly `n` direct-import
edges of the graph. -/
inductive ReachN (g : DependencyGraph) : String → String → Nat → Prop
  | refl (p : String) : ReachN g p p 0
  | tail {p u v : String} {n : Nat} :
      ReachN g p u n → v ∈ GetDirectDeps g u → ReachN g p v (n + 1)

/-- Reachability by zero or more direct-import edges. -/
def ReachStar (g : DependencyGraph) (p q : String) : Prop := ∃ n, ReachN g p q n

/-- Reachability by one or more direct-import edges: the transitive
dependencies of `p`. -/
def ReachPlus (g : DependencyGraph) (p x : String) : Prop :=
  ∃ u, ReachStar g p u ∧ x ∈ GetDirectDeps g u

/-! ## Dependency chain search (`pkg/analyzer/analyzer.go` lines 914-952) -/

/-- Every package name occurring in the graph, as key or as import value
(termination measure for the breadth-first search, whose queue can hold
imported values that are not keys). -/
def allGraphNodes (g : DependencyGraph) : List String :=
  graphNodes g ++ (g.deps.map Prod.snd).flatten

/-- Number of graph names not yet visited by the breadth-first search. -/
def bfsUnvisited (g : DependencyGraph) (visited : List String) : Nat :=
  ((allGraphNodes g).toFinset \ visited.toFinset).card

/-- The loop of `getDependencyChain` (analyzer.go lines 929-949): pop the head
node, skip it when already visited, otherwise mark it, and scan its direct
dependencies in order; the first dependency equal to `toPkg` returns
`newPath`, all others are enqueued with their extended paths.  The second
component is the final visited set (existing only as loop state in Go),
returned so the specification can speak about it. -/
def bfs (g : DependencyGraph) (toPkg : String) :
    List (String × List String) → List String → Option (List String) × List String
  | [], visited => (none, visited)
  | (cur, path) :: rest, visited =>
      if cur ∈ visited then bfs g toPkg rest visited
      else
        if toPkg ∈ GetDirectDeps g cur then (some (path ++ [toPkg]), cur :: visited)
        else
          bfs g toPkg
            (rest ++ (GetDirectDeps g cur).map (fun dep => (dep, path ++ [dep])))
            (cur :: visited)
termination_by queue visited => (bfsUnvisited g visited, queue.length)
decreasing_by
  · apply Prod.Lex.right
    simp
  · rename_i hmem _
    by_cases hcur : cur ∈ allGraphNodes g
    · apply Prod.Lex.left
      apply Finset.card_lt_card
      constructor
      · apply Finset.sdiff_subset_sdiff (le_refl _)
        intro x hx
        simp only [List.toFinset_cons, Finset.mem_insert]
        exact Or.inr hx
      · intro hsub
        have hdmem : cur ∈ (allGraphNodes g).toFinset \ visited.toFinset := by
          simp [List.mem_toFinset, hcur, hmem]
        have := hsub hdmem
        simp [List.mem_toFinset] at this
    · have hdeps : GetDirectDeps g cur = [] := by
        unfold GetDirectDeps
        cases hfind : g.deps.find? (fun e => e.1 == cur) with
        | none => rfl
        | some e =>
          exfalso
          apply hcur
          have hmem2 := List.mem_of_find?_eq_some hfind
          have heq := List.find?_some hfind
          simp at heq
          unfold allGraphNodes graphNodes
          refine List.mem_append.mpr (Or.inl ?_)
          exact heq ▸ List.mem_map.mpr ⟨e, hmem2, rfl⟩
      have hcount : bfsUnvisited g (cur :: visited) = bfsUnvisited g visited := by
        unfold bfsUnvisited
        congr 1
        simp only [List.toFinset_cons]
        rw [Finset.sdiff_insert]
        apply Finset.erase_eq_of_not_mem
        intro hx
        rw [Finset.mem_sdiff, List.mem_toFinset] at hx
        exact hcur hx.1
      rw [hcount, hdeps]
      apply Prod.Lex.right
      simp

/-- `getDependencyChain` (analyzer.go lines 914-952): equal endpoints yield the
one-element chain, otherwise a breadth-first search over `GetDirectDeps` runs
from `[{pkg: fromPkg, path: [fromPkg]}]`; `none` embeds the `nil` return. -/
def getDependencyChain (g : DependencyGraph) (fromPkg toPkg : String) :
    Option (List String) :=
  if fromPkg == toPkg then some [fromPkg]
  else (bfs g toPkg [(fromPkg, [fromPkg])] []).1

/-- Ghost variant of `bfs` that also records, for every visited node, the
length of the path it was popped with.  Used only to prove the shortest-path
property; `bfsG_fst` shows it computes the same chain as `bfs`. -/
def bfsG (g : DependencyGraph) (toPkg : String) :
    List (String × List String) → List (String × Nat) → Option (List String)
  | [], _ => none
  | (cur, path) :: rest, visited =>
      if cur ∈ visited.map Prod.fst then bfsG g toPkg rest visited
      else
        if toPkg ∈ GetDirectDeps g cur then some (path ++ [toPkg])
        else
          bfsG g toPkg
            (rest ++ (GetDirectDeps g cur).map (fun dep => (dep, path ++ [dep])))
            ((cur, path.length) :: visited)
termination_by queue visited => (bfsUnvisited g (visited.map Prod.fst), queue.length)
decreasing_by
  · apply Prod.Lex.right
    simp
  · rename_i hmem _
    by_cases hcur : cur ∈ allGraphNodes g
    · apply Prod.Lex.left
      apply Finset.card_lt_card
      constructor
      · apply Finset.sdiff_subset_sdiff (le_refl _)
        intro x hx
        simp only [List.map_cons, List.toFinset_cons, Finset.mem_insert]
        exact Or.inr hx
      · intro hsub
        have hdmem : cur ∈ (allGraphNodes g).toFinset \ (visited.map Prod.fst).toFinset := by
          simp only [Finset.mem_sdiff, List.mem_toFinset]
          exact ⟨hcur, hmem⟩
        have := hsub hdmem
        simp [List.mem_toFinset] at this
    · have hdeps : GetDirectDeps g cur = [] := by
        unfold GetDirectDeps
        cases hfind : g.deps.find? (fun e => e.1 == cur) with
        | none => rfl
        | some e =>
          exfalso
          apply hcur
          have hmem2 := List.mem_of_find?_eq_some hfind
          have heq := List.find?_some hfind
          simp at heq
          unfold allGraphNodes graphNodes
          refine List.mem_append.mpr (Or.inl ?_)
          exact heq ▸ List.mem_map.mpr ⟨e, hmem2, rfl⟩
      have hcount : bfsUnvisited g (((cur, path.length) :: visited).map Prod.fst) =
          bfsUnvisited g (visited.map Prod.fst) := by
        unfold bfsUnvisited
        congr 1
        simp only [List.map_cons, List.toFinset_cons]
        rw [Finset.sdiff_insert]
        apply Finset.erase_eq_of_not_mem
        intro hx
        rw [Finset.mem_sdiff, List.mem_toFinset] at hx
        exact hcur hx.1
      rw [hcount, hdeps]
      apply Prod.Lex.right
      simp

/-! ## Data model (`src/unnamed/part_003`, types shared by both lineages) -/

/-- `Resource` (part_003): `rtype` embeds the Go field `Type ResourceType`
(a string: "api", "job" or "worker"), `pkg` the field `Package`. -/
structure Resource where
  name : String
  rtype : String
  pkg : String
  sourceFile : String
  description : String
deriving DecidableEq

/-- `AffectedResource` (part_003); `dependencyChain` embeds the Go
`DependencyChain []string`, with the `nil` chain embedded as `[]`. -/
structure AffectedResource where
  resource : Resource
  reason : String
  affectedPackage : String
  dependencyChain : List String
deriving DecidableEq

/-- `InterfaceMethodRange` (`pkg/analyzer/symbols.go`). -/
structure InterfaceMethodRange where
  interfaceName : String
  methodName : String
  startLine : Nat
  endLine : Nat
deriving DecidableEq

/-- `ChangedSymbolInfo` (`pkg/analyzer/symbols.go`); the analyzer-internal
struct `changedSymbolsInfo` (analyzer.go lines 124-128) has the same fields
and is embedded by the same structure. -/
structure ChangedSymbolInfo where
  symbols : List String
  interfaceMethods : List InterfaceMethodRange
  hasUnexportedChanges : Bool
deriving DecidableEq

/-- The configuration fields of `Config` (analyzer.go lines 14-31) that the
embedded algorithms read. -/
structure Config where
  modulePath : String
  projectRoot : String
  pathPrefix : String
  infrastructureFiles : List String
deriving DecidableEq

/-! ## String helpers (Go standard library operations used by the source) -/

/-- Go `strings.TrimPrefix`. -/
def strStartsWith (s pre : String) : Bool := pre.data.isPrefixOf s.data

/-- Go `strings.HasSuffix s suf` on the character lists. -/
def strEndsWith (s suf : String) : Bool := suf.data.isSuffixOf s.data

def trimPre (s pre : String) : String :=
  if strStartsWith s pre then String.mk (s.data.drop pre.data.length) else s

/-- `strings.Contains` on character lists: some tail of `s` starts with
`sub`. -/
def containsChars (sub : List Char) : List Char → Bool
  | [] => sub.isPrefixOf []
  | c :: rest => sub.isPrefixOf (c :: rest) || containsChars sub rest

/-- Go `strings.Contains s sub`. -/
def containsSub (s sub : String) : Bool := containsChars sub.data s.data

/-- Go `filepath.IsAbs` under slash-path conventions. -/
def isAbsPath (s : String) : Bool := strStartsWith s "/"

/-- Go `filepath.Join` for two already-clean path components. -/
def joinPath (a b : String) : String :=
  if b = "" then a else if a = "" then b else a ++ "/" ++ b

/-- `strings.Split s "/"` on the character list of `s`. -/
def splitOnChar (sep : Char) : List Char → List (List Char)
  | [] => [[]]
  | c :: rest =>
      if c = sep then [] :: splitOnChar sep rest
      else
        match splitOnChar sep rest with
        | [] => [[c]]
        | p :: ps => (c :: p) :: ps

/-- Go `strings.Split s "/"`. -/
def splitSlash (s : String) : List String := (splitOnChar '/' s.data).map String.mk

/-- Go `strings.Join parts "/"`. -/
def joinSlash : List String → String
  | [] => ""
  | [x] => x
  | x :: y :: rest => x ++ "/" ++ joinSlash (y :: rest)

/-- Go `filepath.Dir` for clean relative slash paths: everything before the
final separator, or `"."` when there is none. -/
def dirOf (s : String) : String :=
  let parts := splitSlash s
  if parts.length ≤ 1 then "." else joinSlash parts.dropLast

/-- Go `strings.Trim s "\x22"` as used on `BasicLit.Value`: remove all
leading and trailing double-quote characters. -/
def trimQuotes (s : String) : String :=
  String.mk (((s.data.dropWhile (fun c => c = '"')).reverse.dropWhile
    (fun c => c = '"')).reverse)

/-! ## Analyzer helpers (`pkg/analyzer/analyzer.go`) -/

/-- `uniqueStrings` (analyzer.go lines 970-980) with the `seen` set explicit. -/
def uniqueStringsAux : List String → List String → List String
  | [], _ => []
  | v :: rest, seen =>
      if v ∈ seen then uniqueStringsAux rest seen
      else v :: uniqueStringsAux rest (v :: seen)

/-- `uniqueStrings` (analyzer.go lines 970-980): keep the first occurrence of
each string, preserving order. -/
def uniqueStrings (s : List String) : List String := uniqueStringsAux s []

/-- `uniqueInterfaceMethods` (analyzer.go lines 287-298) with the `seen` set
of `interfaceName.methodName` keys explicit. -/
def uniqueInterfaceMethodsAux : List InterfaceMethodRange → List String → List InterfaceMethodRange
  | [], _ => []
  | m :: rest, seen =>
      let key := m.interfaceName ++ "." ++ m.methodName
      if key ∈ seen then uniqueInterfaceMethodsAux rest seen
      else m :: uniqueInterfaceMethodsAux rest (key :: seen)

/-- `uniqueInterfaceMethods` (analyzer.go lines 287-298). -/
def uniqueInterfaceMethods (methods : List InterfaceMethodRange) : List InterfaceMethodRange :=
  uniqueInterfaceMethodsAux methods []

/-- Go map read `m[k]` for a `map[string][]string` association list. -/
def lookupStrs (m : List (String × List String)) (k : String) : List String :=
  match m.find? (fun e => e.1 == k) with
  | some e => e.2
  | none => []

/-- Go `m[k] = append(m[k], v)` on an association list: extend the entry of
`k`, or create it at the end (used for `map[string][]string` and for the
per-package file grouping map). -/
def assocAppend {α : Type} : List (String × List α) → String → α → List (String × List α)
  | [], k, v => [(k, [v])]
  | (k', vs) :: rest, k, v =>
      if k' == k then (k', vs ++ [v]) :: rest
      else (k', vs) :: assocAppend rest k v

/-- `getResourceByName` (analyzer.go lines 905-912): first resource with the
given name. -/
def getResourceByName (resources : List Resource) (name : String) : Option Resource :=
  resources.find? (fun r => r.name == name)

/-- `SymbolAnalyzer.GetPackageDir` (`pkg/analyzer/symbols.go`): strip the
module path, then the leading slash, and join onto the project root. -/
def GetPackageDir (cfg : Config) (pkgPath : String) : String :=
  joinPath cfg.projectRoot (trimPre (trimPre pkgPath cfg.modulePath) "/")

/-- `isInfrastructureFile` (analyzer.go lines 982-1017): normalize the path
(`filepath.ToSlash` is the identity on slash paths, then `TrimPrefix` by the
configured path prefix) and match it, by equality or by `/`-anchored suffix,
against the configured infrastructure files and the built-in `sqlc` files. -/
def isInfrastructureFile (cfg : Config) (filePath : String) : Bool :=
  let normalizedPath := trimPre filePath cfg.pathPrefix
  cfg.infrastructureFiles.any
    (fun infra => normalizedPath == infra || strEndsWith normalizedPath ("/" ++ infra)) ||
  ["sqlc/db.go", "sqlc/models.go", "sqlc/querier.go"].any
    (fun pat => normalizedPath == pat || strEndsWith normalizedPath ("/" ++ pat))

/-! ## Environment of external observations

Every operation whose result depends on the repository contents (parsed Go
files, `git diff` output, directory listings) is a field of `Env`.  The
`DIAnalyzer` (spec section 4.5) has no source under `src/`; its query
`CheckTypeUsage` is modelled from the spec as the oracle `checkTypeUsage`
returning whether a package references one of the given types of a provider
package as a function-parameter or struct-field type.  All other oracles stand
for concrete functions of `pkg/analyzer/symbols.go`, `pkg/analyzer/diff.go`
and `analyzer.go` whose values on the run inputs the oracle records. -/
structure Env where
  /-- `filepath.Rel projectRoot file`: `none` embeds the error case. -/
  rel : String → String → Option String
  /-- `DiffAnalyzer.GetChangedLines` per original file path. -/
  getChangedLines : String → Except Unit (List Nat)
  /-- `SymbolAnalyzer.ExtractExportedSymbols` per absolute file path. -/
  extractExportedSymbols : String → Except Unit (List String)
  /-- `SymbolAnalyzer.GetChangedSymbolsDetailed` per file and changed lines. -/
  getChangedSymbolsDetailed : String → List Nat → Except Unit ChangedSymbolInfo
  /-- `SymbolAnalyzer.CheckSymbolUsage pkgDir targetPkgPath symbols` with a
  non-empty symbol list (the empty-list guard is embedded in the wrapper). -/
  checkSymbolUsageD : String → String → List String → Except Unit Bool
  /-- `SymbolAnalyzer.CheckMethodCallUsage` with a non-empty method list. -/
  checkMethodCallUsageD : String → String → List InterfaceMethodRange → Except Unit Bool
  /-- `SymbolAnalyzer.ExtractAllExportedSymbolsFromDir`. -/
  extractAllExportedSymbolsFromDir : String → Except Unit (List String)
  /-- `SymbolAnalyzer.CheckSymbolUsesSymbols` with a non-empty target list. -/
  checkSymbolUsesSymbolsD : String → String → List String → String → Except Unit Bool
  /-- `SymbolAnalyzer.CheckSymbolUsesInterfaceMethods`, non-empty methods. -/
  checkSymbolUsesInterfaceMethodsD :
    String → String → List InterfaceMethodRange → String → Except Unit Bool
  /-- `SymbolAnalyzer.GetFactoryReturnTypes` (returns a plain list in Go). -/
  getFactoryReturnTypes : String → List String → List String
  /-- `DIAnalyzer.CheckTypeUsage`. Modelled from the spec: the DI analyzer
  source is not under `src/`; spec section 4.5 specifies
  `usesType(D, providerPkg, typeNames)`. -/
  checkTypeUsage : String → String → List String → Except Unit Bool
  /-- `extractReferencedProviders` (analyzer.go lines 686-758): reads and
  parses the aggregator package directory, so its value is an observation. -/
  extractReferencedProviders : String → List String → List String
  /-- `findInterfaceDefinitionPackages` (analyzer.go lines 786-849): the map
  from defining package path to interface names, as an association list. -/
  findInterfaceDefinitionPackages : String → List String → List (String × List String)

/-- `CheckSymbolUsage` including its in-source guard
(`pkg/analyzer/symbols.go` lines 104-107): the empty symbol list answers
`false` without touching the file system. -/
def CheckSymbolUsage (env : Env) (pkgDir targetPkgPath : String)
    (symbols : List String) : Except Unit Bool :=
  if symbols = [] then .ok false else env.checkSymbolUsageD pkgDir targetPkgPath symbols

/-- `CheckMethodCallUsage` including its guard (symbols.go lines 519-522). -/
def CheckMethodCallUsage (env : Env) (pkgDir targetPkgPath : String)
    (methods : List InterfaceMethodRange) : Except Unit Bool :=
  if methods = [] then .ok false else env.checkMethodCallUsageD pkgDir targetPkgPath methods

/-- `CheckSymbolUsesSymbols` including its guard. -/
def CheckSymbolUsesSymbols (env : Env) (pkgDir targetPkgPath : String)
    (targetSymbols : List String) (symbolName : String) : Except Unit Bool :=
  if targetSymbols = [] then .ok false
  else env.checkSymbolUsesSymbolsD pkgDir targetPkgPath targetSymbols symbolName

/-- `CheckSymbolUsesInterfaceMethods` including its guard. -/
def CheckSymbolUsesInterfaceMethods (env : Env) (pkgDir targetPkgPath : String)
    (methods : List InterfaceMethodRange) (symbolName : String) : Except Unit Bool :=
  if methods = [] then .ok false
  else env.checkSymbolUsesInterfaceMethodsD pkgDir targetPkgPath methods symbolName

/-- Go's `value, _ := call(...)` idiom for the boolean checks: each of the
checks returns `false` together with any error, so discarding the error
yields the boolean (or `false` on the error path). -/
def okBool (e : Except Unit Bool) : Bool :=
  match e with
  | .ok b => b
  | .error _ => false

/-! ## Analyzer state and reverse dependencies (`analyzer.go` lines 33-116) -/

/-- The `Analyzer` fields the embedded algorithms read; `reverseDeps` embeds
`map[string][]string` as an association list with unique keys. -/
structure Analyzer where
  config : Config
  graph : DependencyGraph
  resources : List Resource
  reverseDeps : List (String × List String)

/-- `NewAnalyzer` (analyzer.go lines 47-64): a fresh analyzer has no
resources, an empty graph and an empty reverse-dependency map; `Analyze()`
has not run yet. -/
def NewAnalyzer (cfg : Config) : Analyzer :=
  { config := cfg, graph := ⟨[]⟩, resources := [], reverseDeps := [] }

/-- `buildReverseDependencies` (analyzer.go lines 96-116): every resource
with a non-empty package registers its name under its own package and under
every entry of `GetAllDeps` of that package; each entry is deduplicated at
the end. -/
def buildReverseDependencies (resources : List Resource) (g : DependencyGraph) :
    List (String × List String) :=
  (resources.foldl
    (fun m resource =>
      if resource.pkg == "" then m
      else
        let m := assocAppend m resource.pkg resource.name
        (GetAllDeps g resource.pkg).foldl
          (fun m dep => assocAppend m dep resource.name) m)
    []).map (fun e => (e.1, uniqueStrings e.2))

/-- `Analyze` (analyzer.go lines 75-93) after its two I/O phases: resource
extraction (step 1) and `go list` graph construction (step 2) produce
`resources` and `g`; step 3 builds the reverse-dependency map. -/
def analyze (cfg : Config) (resources : List Resource) (g : DependencyGraph) : Analyzer :=
  { config := cfg, graph := g, resources := resources,
    reverseDeps := buildReverseDependencies resources g }

/-- `GetResources` (analyzer.go lines 119-121). -/
def GetResources (a : Analyzer) : List Resource := a.resources

/-- `GetReverseDeps` (analyzer.go lines 955-957): plain map read. -/
def GetReverseDeps (a : Analyzer) (pkgPath : String) : List String :=
  lookupStrs a.reverseDeps pkgPath

/-! ## Impact resolution (`analyzer.go` lines 131-683) -/

/-- `getAffectedExportedSymbols` (analyzer.go lines 457-491): the exported
symbols of `pkgPath` whose implementation references one of `changedSymbols`
of `changedPkgPath`, extended by factory return types that are themselves
exported by the package. -/
def getAffectedExportedSymbols (env : Env) (cfg : Config)
    (pkgPath changedPkgPath : String) (changedSymbols : List String) : List String :=
  let pkgDir := GetPackageDir cfg pkgPath
  match env.extractAllExportedSymbolsFromDir pkgDir with
  | .error _ => []
  | .ok allExportedSymbols =>
      let affectedSymbols := allExportedSymbols.filter
        (fun sym => okBool (CheckSymbolUsesSymbols env pkgDir changedPkgPath changedSymbols sym))
      if affectedSymbols ≠ [] then
        let returnTypes := env.getFactoryReturnTypes pkgDir affectedSymbols
        returnTypes.foldl
          (fun acc rt =>
            allExportedSymbols.foldl
              (fun acc2 sym => if sym = rt ∧ sym ∉ acc2 then acc2 ++ [sym] else acc2)
              acc)
          affectedSymbols
      else affectedSymbols

/-- `getAffectedExportedSymbolsByMethods` (analyzer.go lines 504-536). -/
def getAffectedExportedSymbolsByMethods (env : Env) (cfg : Config)
    (pkgPath changedPkgPath : String) (changedMethods : List InterfaceMethodRange) :
    List String :=
  let pkgDir := GetPackageDir cfg pkgPath
  match env.extractAllExportedSymbolsFromDir pkgDir with
  | .error _ => []
  | .ok allExportedSymbols =>
      let affectedSymbols := allExportedSymbols.filter
        (fun sym =>
          okBool (CheckSymbolUsesInterfaceMethods env pkgDir changedPkgPath changedMethods sym))
      if affectedSymbols ≠ [] then
        let returnTypes := env.getFactoryReturnTypes pkgDir affectedSymbols
        returnTypes.foldl
          (fun acc rt =>
            allExportedSymbols.foldl
              (fun acc2 sym => if sym = rt ∧ sym ∉ acc2 then acc2 ++ [sym] else acc2)
              acc)
          affectedSymbols
      else affectedSymbols

/-- `isResourceAffectedByProviderChange` (analyzer.go lines 541-598). -/
def isResourceAffectedByProviderChange (env : Env) (cfg : Config) (g : DependencyGraph)
    (resource : Resource) (changedPkgPath : String) (info : ChangedSymbolInfo) : Bool :=
  let providerPkgDir := GetPackageDir cfg changedPkgPath
  let providedInterfaces := info.symbols.foldl
    (fun acc sym => acc ++ env.getFactoryReturnTypes providerPkgDir [sym]) []
  let providedInterfaces :=
    if providedInterfaces = [] then
      providedInterfaces ++ env.getFactoryReturnTypes providerPkgDir ["New"]
    else providedInterfaces
  if providedInterfaces = [] then false
  else
    let interfacePackages := env.findInterfaceDefinitionPackages providerPkgDir providedInterfaces
    let allDeps := GetAllDeps g resource.pkg
    let packagesToCheck :=
      resource.pkg :: allDeps.filter (fun dep => strStartsWith dep (resource.pkg ++ "/"))
    packagesToCheck.any (fun pkg =>
      let pkgDir := GetPackageDir cfg pkg
      interfacePackages.any (fun ip =>
        okBool (env.checkTypeUsage pkgDir ip.1 ip.2) ||
        okBool (CheckSymbolUsage env pkgDir ip.1 ip.2)))

/-- Loop body of `isAggregatorProviderPackage` (analyzer.go lines 612-624):
scan the `/`-separated parts; a part equal to `provider` that is last, or is
directly followed by `internal`, makes the package an aggregator. -/
def aggLoop : List String → Bool
  | [] => false
  | part :: rest =>
      if part = "provider" then
        match rest with
        | [] => true
        | next :: rest2 => if next = "internal" then true else aggLoop (next :: rest2)
      else aggLoop rest

/-- `isAggregatorProviderPackage` (analyzer.go lines 602-627). -/
def isAggregatorProviderPackage (pkgPath : String) : Bool :=
  if containsSub pkgPath "/pkg/provider/" then false
  else aggLoop (splitSlash pkgPath)

/-- `isResourceAffectedByAggregatorChange` (analyzer.go lines 631-683). -/
def isResourceAffectedByAggregatorChange (env : Env) (cfg : Config) (g : DependencyGraph)
    (resource : Resource) (changedPkgPath : String) (info : ChangedSymbolInfo) : Bool :=
  let pkgDir := GetPackageDir cfg changedPkgPath
  let referencedProviders := env.extractReferencedProviders pkgDir info.symbols
  if referencedProviders = [] then false
  else
    let allDeps := GetAllDeps g resource.pkg
    let packagesToCheck :=
      resource.pkg :: allDeps.filter (fun dep => strStartsWith dep (resource.pkg ++ "/"))
    referencedProviders.any (fun providerPkg =>
      let providerDir := GetPackageDir cfg providerPkg
      let returnTypes := env.getFactoryReturnTypes providerDir ["New"]
      if returnTypes = [] then false
      else
        let interfacePackages := env.findInterfaceDefinitionPackages providerDir returnTypes
        packagesToCheck.any (fun pkg =>
          let checkPkgDir := GetPackageDir cfg pkg
          interfacePackages.any (fun ip =>
            okBool (env.checkTypeUsage checkPkgDir ip.1 ip.2) ||
            okBool (CheckSymbolUsage env checkPkgDir ip.1 ip.2))))

/-- The interface-method part of one direct-importer iteration
(analyzer.go lines 419-449): run when the symbol check did not fire; `false`
embeds `continue`. -/
def importerMethodWitness (env : Env) (cfg : Config) (resource : Resource)
    (pkg changedPkgPath : String) (info : ChangedSymbolInfo) (directImporter : String) : Bool :=
  let pkgDir := GetPackageDir cfg directImporter
  if info.interfaceMethods ≠ [] then
    match CheckMethodCallUsage env pkgDir changedPkgPath info.interfaceMethods with
    | .error _ => false
    | .ok true =>
        if directImporter = pkg then true
        else
          let bridge := getAffectedExportedSymbolsByMethods env cfg directImporter
            changedPkgPath info.interfaceMethods
          if bridge ≠ [] then
            if okBool (CheckSymbolUsage env (GetPackageDir cfg pkg) directImporter bridge) then
              true
            else
              okBool (CheckSymbolUsage env (GetPackageDir cfg resource.pkg) directImporter bridge)
          else false
    | .ok false => false
  else false

/-- One direct-importer iteration of the general branch (analyzer.go lines
384-450): the symbol-usage check with its bridging refinement; on an error or
a failed bridge the iteration `continue`s (yields `false`, skipping the
method check); when the symbol check does not fire the method check of
`importerMethodWitness` runs. -/
def importerWitness (env : Env) (cfg : Config) (resource : Resource)
    (pkg changedPkgPath : String) (info : ChangedSymbolInfo) (directImporter : String) : Bool :=
  let pkgDir := GetPackageDir cfg directImporter
  if info.symbols ≠ [] then
    match CheckSymbolUsage env pkgDir changedPkgPath info.symbols with
    | .error _ => false
    | .ok true =>
        if directImporter = pkg then true
        else
          let bridge := getAffectedExportedSymbols env cfg directImporter
            changedPkgPath info.symbols
          if bridge ≠ [] then
            if okBool (CheckSymbolUsage env (GetPackageDir cfg pkg) directImporter bridge) then
              true
            else
              okBool (CheckSymbolUsage env (GetPackageDir cfg resource.pkg) directImporter bridge)
          else false
    | .ok false => importerMethodWitness env cfg resource pkg changedPkgPath info directImporter
  else importerMethodWitness env cfg resource pkg changedPkgPath info directImporter

/-- The direct importers of `changedPkgPath` relevant to `pkg`
(analyzer.go lines 355-377): `pkg` itself when it imports the changed package
directly, then every element of `pkgDeps` that does. -/
def directImportersOf (g : DependencyGraph) (pkg changedPkgPath : String)
    (pkgDeps : List String) : List String :=
  (if changedPkgPath ∈ GetDirectDeps g pkg then [pkg] else []) ++
    pkgDeps.filter (fun dep => changedPkgPath ∈ GetDirectDeps g dep)

/-- One `packagesToCheck` iteration of the general branch (analyzer.go lines
341-451): skip packages that do not transitively depend on the changed
package, otherwise try every direct importer. -/
def pkgWitness (env : Env) (cfg : Config) (g : DependencyGraph) (resource : Resource)
    (changedPkgPath : String) (info : ChangedSymbolInfo) (pkg : String) : Bool :=
  let pkgDeps := GetAllDeps g pkg
  if changedPkgPath ∈ pkgDeps then
    (directImportersOf g pkg changedPkgPath pkgDeps).any
      (fun di => importerWitness env cfg resource pkg changedPkgPath info di)
  else false

/-- `isResourceAffectedBySymbols` (analyzer.go lines 301-454). -/
def isResourceAffectedBySymbols (env : Env) (cfg : Config) (g : DependencyGraph)
    (resource : Resource) (changedPkgPath : String) (info : ChangedSymbolInfo) : Bool :=
  if info.symbols = [] ∧ info.interfaceMethods = [] then false
  else if resource.pkg = changedPkgPath ∨ strStartsWith changedPkgPath (resource.pkg ++ "/") then
    true
  else if containsSub changedPkgPath "/pkg/provider/" then
    isResourceAffectedByProviderChange env cfg g resource changedPkgPath info
  else if isAggregatorProviderPackage changedPkgPath then
    isResourceAffectedByAggregatorChange env cfg g resource changedPkgPath info
  else
    let allDeps := GetAllDeps g resource.pkg
    let packagesToCheck :=
      resource.pkg :: allDeps.filter (fun dep => strStartsWith dep (resource.pkg ++ "/"))
    packagesToCheck.any
      (fun pkg => pkgWitness env cfg g resource changedPkgPath info pkg)

/-! ## `GetAffectedResources` (analyzer.go lines 131-284) -/

/-- The per-file metadata of the grouping loop (analyzer.go lines 135-139). -/
structure FileInfo where
  absPath : String
  origPath : String
  isInfrastructure : Bool
deriving DecidableEq

/-- `fileToPackage` (analyzer.go lines 872-902). -/
def fileToPackage (env : Env) (cfg : Config) (filePath : String) : String :=
  let rel? := if isAbsPath filePath then env.rel cfg.projectRoot filePath else some filePath
  match rel? with
  | none => ""
  | some relPath0 =>
      let relPath := trimPre relPath0 cfg.pathPrefix
      if ¬ (strEndsWith relPath ".go") then ""
      else
        let dir := dirOf relPath
        if dir = "." then cfg.modulePath
        else cfg.modulePath ++ "/" ++ dir

/-- The grouping loop of `GetAffectedResources` (analyzer.go lines 140-160):
files that map to no package are skipped, the rest are grouped by package in
first-appearance order with their absolute path and infrastructure flag. -/
def groupFiles (env : Env) (cfg : Config) (changedFiles : List String) :
    List (String × List FileInfo) :=
  changedFiles.foldl
    (fun acc file =>
      let pkgPath := fileToPackage env cfg file
      if pkgPath = "" then acc
      else
        let absPath :=
          if isAbsPath file then file
          else joinPath cfg.projectRoot (trimPre file cfg.pathPrefix)
        assocAppend acc pkgPath
          { absPath := absPath, origPath := file,
            isInfrastructure := isInfrastructureFile cfg file })
    []

/-- The per-package accumulation state of analyzer.go lines 174-180. -/
structure PkgSummary where
  changedSymbols : List String
  interfaceMethods : List InterfaceMethodRange
  hasUnexportedChanges : Bool
  infraSymbols : List String
deriving DecidableEq

/-- Pointwise concatenation of two per-package summaries (used to state that
the per-file loop accumulates file contributions independently). -/
def mergeSummary (a b : PkgSummary) : PkgSummary :=
  { changedSymbols := a.changedSymbols ++ b.changedSymbols,
    interfaceMethods := a.interfaceMethods ++ b.interfaceMethods,
    hasUnexportedChanges := a.hasUnexportedChanges || b.hasUnexportedChanges,
    infraSymbols := a.infraSymbols ++ b.infraSymbols }

/-- One iteration of the per-file loop (analyzer.go lines 182-220): a diff
failure or empty diff falls back to the full exported symbol list; a failing
detailed analysis falls back likewise (with the error of the second
extraction discarded); infrastructure files feed `infraSymbols` only. -/
def summarizeStep (env : Env) (acc : PkgSummary) (fi : FileInfo) : PkgSummary :=
  match env.getChangedLines fi.origPath with
  | .error _ =>
      (match env.extractExportedSymbols fi.absPath with
       | .ok symbols =>
           if fi.isInfrastructure then
             { acc with infraSymbols := acc.infraSymbols ++ symbols }
           else { acc with changedSymbols := acc.changedSymbols ++ symbols }
       | .error _ => acc)
  | .ok changedLines =>
      if changedLines = [] then
        match env.extractExportedSymbols fi.absPath with
        | .ok symbols =>
            if fi.isInfrastructure then
              { acc with infraSymbols := acc.infraSymbols ++ symbols }
            else { acc with changedSymbols := acc.changedSymbols ++ symbols }
        | .error _ => acc
      else
        match env.getChangedSymbolsDetailed fi.absPath changedLines with
        | .error _ =>
            let allSymbols :=
              match env.extractExportedSymbols fi.absPath with
              | .ok syms => syms
              | .error _ => []
            if fi.isInfrastructure then
              { acc with infraSymbols := acc.infraSymbols ++ allSymbols }
            else { acc with changedSymbols := acc.changedSymbols ++ allSymbols }
        | .ok symbolInfo =>
            if fi.isInfrastructure then
              { acc with infraSymbols := acc.infraSymbols ++ symbolInfo.symbols }
            else
              { acc with
                changedSymbols := acc.changedSymbols ++ symbolInfo.symbols,
                interfaceMethods := acc.interfaceMethods ++ symbolInfo.interfaceMethods,
                hasUnexportedChanges :=
                  acc.hasUnexportedChanges || symbolInfo.hasUnexportedChanges }

/-- The per-file loop over one package group (analyzer.go lines 174-220). -/
def summarizeFiles (env : Env) (files : List FileInfo) : PkgSummary :=
  files.foldl (summarizeStep env)
    { changedSymbols := [], interfaceMethods := [], hasUnexportedChanges := false,
      infraSymbols := [] }

/-- The per-package change summary (analyzer.go lines 162-247): run the
per-file loop, adopt the infrastructure symbols when every file of the
package is infrastructure, deduplicate, and drop symbols that name an
interface with specifically changed methods. -/
def packageChangedInfo (env : Env) (files : List FileInfo) : ChangedSymbolInfo :=
  let allInfrastructure := files.all (fun fi => fi.isInfrastructure)
  let hasNonInfraFiles := files.any (fun fi => ¬ fi.isInfrastructure)
  let s := summarizeFiles env files
  let changedSymbols :=
    if allInfrastructure ∧ ¬ hasNonInfraFiles ∧ s.infraSymbols ≠ [] then s.infraSymbols
    else s.changedSymbols
  let changedSymbols := uniqueStrings changedSymbols
  let changedInterfaceMethods := uniqueInterfaceMethods s.interfaceMethods
  let changedSymbols :=
    if changedInterfaceMethods ≠ [] then
      let interfaceNames := changedInterfaceMethods.map (fun m => m.interfaceName)
      changedSymbols.filter (fun sym => sym ∉ interfaceNames)
    else changedSymbols
  { symbols := changedSymbols, interfaceMethods := changedInterfaceMethods,
    hasUnexportedChanges := s.hasUnexportedChanges }

/-- One iteration of the candidate loop of a package group (analyzer.go
lines 251-276): `affectedMap` is the name-keyed association list `acc`; names
already present are skipped, unknown names are skipped, and a positive
`isResourceAffectedBySymbols` verdict records the affected resource with its
reason, affected package and dependency chain. -/
def candStep (env : Env) (cfg : Config) (g : DependencyGraph)
    (resources : List Resource) (pkgPath : String) (info : ChangedSymbolInfo)
    (acc : List (String × AffectedResource)) (name : String) :
    List (String × AffectedResource) :=
  if (acc.find? (fun e => e.1 == name)).isSome then acc
  else
    match getResourceByName resources name with
    | none => acc
    | some resource =>
        if isResourceAffectedBySymbols env cfg g resource pkgPath info then
          acc ++ [(name,
            { resource := resource,
              reason := "depends on " ++ pkgPath,
              affectedPackage := pkgPath,
              dependencyChain := (getDependencyChain g resource.pkg pkgPath).getD [] })]
        else acc

/-- The candidate loop over the reverse-dependency entry of the package. -/
def processCandidates (env : Env) (cfg : Config) (g : DependencyGraph)
    (resources : List Resource) (reverseDeps : List (String × List String))
    (affected : List (String × AffectedResource)) (pkgPath : String)
    (info : ChangedSymbolInfo) : List (String × AffectedResource) :=
  (lookupStrs reverseDeps pkgPath).foldl
    (candStep env cfg g resources pkgPath info) affected

/-- `GetAffectedResources` (analyzer.go lines 131-284): group the changed
files by package, process every package group against the reverse-dependency
candidates, and return the collected affected resources. -/
def GetAffectedResources (env : Env) (a : Analyzer) (changedFiles : List String) :
    List AffectedResource :=
  ((groupFiles env a.config changedFiles).foldl
    (fun acc e =>
      processCandidates env a.config a.graph a.resources a.reverseDeps acc e.1
        (packageChangedInfo env e.2))
    []).map Prod.snd

/-- `GetAffectedResourcesByPackage` (analyzer.go lines 852-869). -/
def GetAffectedResourcesByPackage (a : Analyzer) (pkgPath : String) : List AffectedResource :=
  (lookupStrs a.reverseDeps pkgPath).foldl
    (fun acc name =>
      match getResourceByName a.resources name with
      | none => acc
      | some resource =>
          acc ++ [{ resource := resource,
                    reason := "depends on " ++ pkgPath,
                    affectedPackage := pkgPath,
                    dependencyChain :=
                      (getDependencyChain a.graph resource.pkg pkgPath).getD [] }])
    []

/-! ## Resource extraction (`internal/analyzer/extractor.go` lines 177-228,
identical in `src/unnamed/part_005` lines 188-239) -/

/-- The value of a composite-literal field: `strLit raw` embeds an
`*ast.BasicLit` of kind `token.STRING` whose `Value` is the literal text
`raw` (quotes included); `other` embeds every other expression. -/
inductive FieldValue
  | strLit (raw : String)
  | other
deriving DecidableEq

/-- One element of the command composite literal: `kv key value` embeds a
`*ast.KeyValueExpr` whose key is the identifier `key`; `other` embeds
non-key-value elements and key-value elements with a non-identifier key
(both are skipped by the loop). -/
inductive CmdElt
  | kv (key : String) (value : FieldValue)
  | other
deriving DecidableEq

/-- The prefix of a string before its first space character:
`strings.SplitN(s, " ", 2)[0]`. -/
def firstSpaceToken (s : String) : String :=
  String.mk (s.data.takeWhile (fun c => ¬ c = ' '))

/-- One iteration of the field loop of `extractResourceFromCompositeLit`
(extractor.go lines 185-215) over the accumulator `(name, description, pkg)`:
a `Use` string literal sets the name to the part of the trimmed value before
the first space (`strings.SplitN(useValue, " ", 2)[0]`), a `Short` string
literal sets the description, and `RunE` sets the package through
`extractPackageFromRunE` (whose AST walk over the field value and the file's
imports is the parameter `runEPkg`). -/
def cmdEltStep (runEPkg : FieldValue → String) (acc : String × String × String)
    (elt : CmdElt) : String × String × String :=
  match elt with
  | .other => acc
  | .kv key value =>
      if key = "Use" then
        match value with
        | .strLit raw => (firstSpaceToken (trimQuotes raw), acc.2.1, acc.2.2)
        | .other => acc
      else if key = "Short" then
        match value with
        | .strLit raw => (acc.1, trimQuotes raw, acc.2.2)
        | .other => acc
      else if key = "RunE" then (acc.1, acc.2.1, runEPkg value)
      else acc

/-- `extractResourceFromCompositeLit` (extractor.go lines 177-228): scan the
literal elements with `cmdEltStep`; an empty final name yields no
resource. -/
def extractResourceFromCompositeLit (runEPkg : FieldValue → String)
    (elts : List CmdElt) (resourceType sourceFile : String) : Option Resource :=
  let s := elts.foldl (cmdEltStep runEPkg) ("", "", "")
  if s.1 = "" then none
  else
    some { name := s.1, rtype := resourceType, pkg := s.2.2,
           sourceFile := sourceFile, description := s.2.1 }

/-- The first whitespace-delimited token of a string (what the specification
text describes for the resource name). -/
def firstWhitespaceToken (s : String) : String :=
  String.mk (s.data.takeWhile (fun c => ¬ c.isWhitespace))

/-! ## Path predicate for dependency chains -/

/-- `IsPath g l fromPkg toPkg`: `l` is a chain that starts at `fromPkg`, ends
at `toPkg`, and follows one direct import edge of `g` between every two
consecutive entries. -/
def IsPath (g : DependencyGraph) (l : List String) (fromPkg toPkg : String) : Prop :=
  l.head? = some fromPkg ∧ l.getLast? = some toPkg ∧
    List.Chain' (fun x y => y ∈ GetDirectDeps g x) l

/-! ## Concrete instances used by counterexamples and witnesses -/

/-- A graph with a diamond (`a → b → d`, `a → c → d`) and a cycle
(`a → b → a`). -/
def gDC : DependencyGraph :=
  ⟨[("a", ["b", "c"]), ("b", ["d", "a"]), ("c", ["d"]), ("d", [])]⟩

/-- A two-node import cycle. -/
def gCycle : DependencyGraph := ⟨[("a", ["b"]), ("b", ["a"])]⟩

/-- Configuration of the concrete resolver scenarios: module `m` rooted at
`/p`, no path prefix, no configured infrastructure files. -/
def cfgM : Config :=
  { modulePath := "m", projectRoot := "/p", pathPrefix := "", infrastructureFiles := [] }

/-- Resource `gw` implemented in package `m/gw`. -/
def resGw : Resource :=
  { name := "gw", rtype := "api", pkg := "m/gw", sourceFile := "cli/cmd/api.go",
    description := "gateway" }

/-- Graph of the monotonicity scenario: `m/gw` imports `m/svc`. -/
def gM : DependencyGraph := ⟨[("m/gw", ["m/svc"]), ("m/svc", [])]⟩

/-- The interface method `Client.Fetch` changed in the scenario. -/
def imFetch : InterfaceMethodRange :=
  { interfaceName := "Client", methodName := "Fetch", startLine := 5, endLine := 6 }

/-- Environment of the monotonicity scenario: editing `svc/a.go` touches the
exported type `Client` of package `m/svc`; editing `svc/b.go` touches only
the interface method `Client.Fetch`.  Package `m/gw` references the symbol
`Client` of `m/svc` but never calls `Fetch` (the method-call witness search
and every other use witness answers `false`). -/
def envC2 : Env :=
  { rel := fun _ _ => none
    getChangedLines := fun p =>
      if p = "svc/a.go" then .ok [10]
      else if p = "svc/b.go" then .ok [20]
      else .error ()
    extractExportedSymbols := fun _ => .error ()
    getChangedSymbolsDetailed := fun p _ =>
      if p = "/p/svc/a.go" then
        .ok { symbols := ["Client"], interfaceMethods := [], hasUnexportedChanges := false }
      else if p = "/p/svc/b.go" then
        .ok { symbols := [], interfaceMethods := [imFetch], hasUnexportedChanges := false }
      else .error ()
    checkSymbolUsageD := fun dir tgt syms =>
      if dir = "/p/gw" ∧ tgt = "m/svc" ∧ syms = ["Client"] then .ok true else .ok false
    checkMethodCallUsageD := fun _ _ _ => .ok false
    extractAllExportedSymbolsFromDir := fun _ => .ok []
    checkSymbolUsesSymbolsD := fun _ _ _ _ => .ok false
    checkSymbolUsesInterfaceMethodsD := fun _ _ _ _ => .ok false
    getFactoryReturnTypes := fun _ _ => []
    checkTypeUsage := fun _ _ _ => .ok false
    extractReferencedProviders := fun _ _ => []
    findInterfaceDefinitionPackages := fun _ _ => [] }

/-- The analyzed state of the monotonicity scenario. -/
def stM : Analyzer := analyze cfgM [resGw] gM

/-- The affected resource reported for the single-file change of the
monotonicity scenario. -/
def afC2 : AffectedResource :=
  { resource := resGw, reason := "depends on m/svc", affectedPackage := "m/svc",
    dependencyChain := ["m/gw", "m/svc"] }

/-- Graph of the infrastructure scenario: `m/gw` imports its subpackage
`m/gw/sqlc`. -/
def gM3 : DependencyGraph := ⟨[("m/gw", ["m/gw/sqlc"]), ("m/gw/sqlc", [])]⟩

/-- Environment of the infrastructure scenario: the only change is the
auto-generated `gw/sqlc/models.go` (an infrastructure file by the built-in
patterns) touching the exported symbol `Row`; every symbol-use, method-call
and DI-type witness in the project answers `false`. -/
def envC3 : Env :=
  { rel := fun _ _ => none
    getChangedLines := fun p => if p = "gw/sqlc/models.go" then .ok [5] else .error ()
    extractExportedSymbols := fun _ => .error ()
    getChangedSymbolsDetailed := fun p _ =>
      if p = "/p/gw/sqlc/models.go" then
        .ok { symbols := ["Row"], interfaceMethods := [], hasUnexportedChanges := false }
      else .error ()
    checkSymbolUsageD := fun _ _ _ => .ok false
    checkMethodCallUsageD := fun _ _ _ => .ok false
    extractAllExportedSymbolsFromDir := fun _ => .ok []
    checkSymbolUsesSymbolsD := fun _ _ _ _ => .ok false
    checkSymbolUsesInterfaceMethodsD := fun _ _ _ _ => .ok false
    getFactoryReturnTypes := fun _ _ => []
    checkTypeUsage := fun _ _ _ => .ok false
    extractReferencedProviders := fun _ _ => []
    findInterfaceDefinitionPackages := fun _ _ => [] }

/-- The analyzed state of the infrastructure scenario. -/
def stM3 : Analyzer := analyze cfgM [resGw] gM3

/-- The resource reported for the infrastructure-only change. -/
def afC3 : AffectedResource :=
  { resource := resGw, reason := "depends on m/gw/sqlc", affectedPackage := "m/gw/sqlc",
    dependencyChain := ["m/gw", "m/gw/sqlc"] }

/-- Environment of the diff-fallback scenario: the diff source fails for
`a/x.go`, whose full exported symbol list is `Foo, Bar`; `a/y.go` has a
normal diff touching `Baz`. -/
def envC7 : Env :=
  { rel := fun _ _ => none
    getChangedLines := fun p => if p = "a/y.go" then .ok [3] else .error ()
    extractExportedSymbols := fun p =>
      if p = "/p/a/x.go" then .ok ["Foo", "Bar"] else .error ()
    getChangedSymbolsDetailed := fun p _ =>
      if p = "/p/a/y.go" then
        .ok { symbols := ["Baz"], interfaceMethods := [], hasUnexportedChanges := false }
      else .error ()
    checkSymbolUsageD := fun _ _ _ => .ok false
    checkMethodCallUsageD := fun _ _ _ => .ok false
    extractAllExportedSymbolsFromDir := fun _ => .ok []
    checkSymbolUsesSymbolsD := fun _ _ _ _ => .ok false
    checkSymbolUsesInterfaceMethodsD := fun _ _ _ _ => .ok false
    getFactoryReturnTypes := fun _ _ => []
    checkTypeUsage := fun _ _ _ => .ok false
    extractReferencedProviders := fun _ _ => []
    findInterfaceDefinitionPackages := fun _ _ => [] }

/-- The failing-diff file of the fallback scenario. -/
def fiC7 : FileInfo :=
  { absPath := "/p/a/x.go", origPath := "a/x.go", isInfrastructure := false }

/-- The normally-diffed file of the fallback scenario. -/
def fiC7b : FileInfo :=
  { absPath := "/p/a/y.go", origPath := "a/y.go", isInfrastructure := false }

/-- The command literal of the extraction counterexample: a `Use` field whose
string value `a<TAB>b` contains a tab but no space. -/
def eltsTab : List CmdElt := [CmdElt.kv "Use" (FieldValue.strLit "\x22a\tb\x22")]

/-- A well-formed command literal used by the extraction witness. -/
def eltsRun : List CmdElt :=
  [CmdElt.kv "Use" (FieldValue.strLit "\x22run-job [id]\x22"),
   CmdElt.kv "Short" (FieldValue.strLit "\x22runs the job\x22")]

/-! ## Theorems: depth-first traversal (`GetAllDeps`) -/

/-- Monotonicity of predicates under filters (helper). -/
theorem filter_length_mono {l : List String} {p q : String → Bool}
    (h : ∀ x, q x = true → p x = true) :
    (l.filter q).length ≤ (l.filter p).length := by
  induction l with
  | nil => simp
  | cons a l ih =>
    by_cases hq : q a
    · have hp := h a hq
      simp only [List.filter, hq, hp]
      simpa using ih
    · simp only [List.filter]
      rw [Bool.not_eq_true] at hq
      rw [hq]
      by_cases hp : p a
      · rw [hp]
        exact Nat.le_succ_of_le ih
      · rw [Bool.not_eq_true] at hp
        rw [hp]
        exact ih

/-- Anti-monotonicity of the unvisited count in the visited set. -/
theorem unvisitedCount_anti (g : DependencyGraph) {v v' : List String}
    (h : ∀ x ∈ v, x ∈ v') : unvisitedCount g v' ≤ unvisitedCount g v := by
  apply Finset.card_le_card
  apply Finset.sdiff_subset_sdiff (le_refl _)
  intro x hx
  rw [List.mem_toFinset] at hx ⊢
  exact h x hx

/-- A package absent from the graph keys has no direct dependencies. -/
theorem getDirectDeps_eq_nil_of_not_node (g : DependencyGraph) {d : String}
    (hd : d ∉ graphNodes g) : GetDirectDeps g d = [] := by
  unfold GetDirectDeps
  cases hfind : g.deps.find? (fun e => e.1 == d) with
  | none => rfl
  | some e =>
    exfalso
    apply hd
    have hmem := List.mem_of_find?_eq_some hfind
    have heq := List.find?_some hfind
    simp at heq
    exact heq ▸ List.mem_map.mpr ⟨e, hmem, rfl⟩

/-- Visiting a graph key strictly shrinks the unvisited count. -/
theorem unvisitedCount_cons_lt (g : DependencyGraph) {d : String} {v : List String}
    (hd : d ∈ graphNodes g) (hv : d ∉ v) :
    unvisitedCount g (d :: v) < unvisitedCount g v := by
  apply Finset.card_lt_card
  constructor
  · apply Finset.sdiff_subset_sdiff (le_refl _)
    intro x hx
    simp only [List.toFinset_cons, Finset.mem_insert]
    exact Or.inr hx
  · intro hsub
    have hdmem : d ∈ (graphNodes g).toFinset \ v.toFinset := by
      simp [List.mem_toFinset, hd, hv]
    have := hsub hdmem
    simp [List.mem_toFinset] at this

/-- Every element of the starting visited set survives the traversal. -/
theorem collect_visited_sub (g : DependencyGraph) (stack : List (List String))
    (visited result : List String) :
    ∀ x ∈ visited, x ∈ (collect g stack visited result).1 := by
  induction stack, visited, result using collect.induct g with
  | case1 visited result => simp [collect]
  | case2 stack visited result ih =>
    rw [collect]
    exact ih
  | case3 d ds stack visited result hmem ih =>
    rw [collect, if_pos hmem]
    exact ih
  | case4 d ds stack visited result hmem ih =>
    rw [collect, if_neg hmem]
    intro x hx
    exact ih x (List.mem_cons_of_mem d hx)

/-- Every element of the starting result list survives the traversal. -/
theorem collect_result_sub (g : DependencyGraph) (stack : List (List String))
    (visited result : List String) :
    ∀ x ∈ result, x ∈ (collect g stack visited result).2 := by
  induction stack, visited, result using collect.induct g with
  | case1 visited result => simp [collect]
  | case2 stack visited result ih =>
    rw [collect]
    exact ih
  | case3 d ds stack visited result hmem ih =>
    rw [collect, if_pos hmem]
    intro x hx
    exact ih x (List.mem_append_left _ hx)
  | case4 d ds stack visited result hmem ih =>
    rw [collect, if_neg hmem]
    intro x hx
    exact ih x (List.mem_append_left _ hx)

/-- Every element of every pending frame ends up in the result and in the
visited set. -/
theorem collect_frames (g : DependencyGraph) (stack : List (List String))
    (visited result : List String) :
    ∀ f ∈ stack, ∀ x ∈ f,
      x ∈ (collect g stack visited result).2 ∧ x ∈ (collect g stack visited result).1 := by
  induction stack, visited, result using collect.induct g with
  | case1 visited result => simp
  | case2 stack visited result ih =>
    rw [collect]
    intro f hf x hx
    rcases List.mem_cons.mp hf with h | h
    · subst h
      simp at hx
    · exact ih f h x hx
  | case3 d ds stack visited result hmem ih =>
    rw [collect, if_pos hmem]
    intro f hf x hx
    rcases List.mem_cons.mp hf with h | h
    · subst h
      rcases List.mem_cons.mp hx with h2 | h2
      · subst h2
        exact ⟨collect_result_sub g _ _ _ x (List.mem_append_right _ (by simp)),
               collect_visited_sub g _ _ _ x hmem⟩
      · exact ih ds (List.mem_cons_self _ _) x h2
    · exact ih f (List.mem_cons_of_mem _ h) x hx
  | case4 d ds stack visited result hmem ih =>
    rw [collect, if_neg hmem]
    intro f hf x hx
    rcases List.mem_cons.mp hf with h | h
    · subst h
      rcases List.mem_cons.mp hx with h2 | h2
      · subst h2
        exact ⟨collect_result_sub g _ _ _ x (List.mem_append_right _ (by simp)),
               collect_visited_sub g _ _ _ x (List.mem_cons_self _ _)⟩
      · exact ih ds (List.mem_cons_of_mem _ (List.mem_cons_self _ _)) x h2
    · exact ih f (List.mem_cons_of_mem _ (List.mem_cons_of_mem _ h)) x hx

/-- Every node first visited during the traversal has been fully expanded:
its direct dependencies are in the final result and in the final visited
set. -/
theorem collect_expand (g : DependencyGraph) (stack : List (List String))
    (visited result : List String) :
    ∀ u, u ∈ (collect g stack visited result).1 → u ∉ visited →
      ∀ e ∈ GetDirectDeps g u,
        e ∈ (collect g stack visited result).2 ∧ e ∈ (collect g stack visited result).1 := by
  induction stack, visited, result using collect.induct g with
  | case1 visited result =>
    intro u hu hnu
    rw [collect] at hu
    exact absurd hu hnu
  | case2 stack visited result ih =>
    rw [collect]
    exact ih
  | case3 d ds stack visited result hmem ih =>
    rw [collect, if_pos hmem]
    exact ih
  | case4 d ds stack visited result hmem ih =>
    rw [collect, if_neg hmem]
    intro u hu hnu e he
    by_cases hud : u = d
    · subst hud
      exact collect_frames g _ _ _ (GetDirectDeps g u) (List.mem_cons_self _ _) e he
    · exact ih u hu (fun hc => (List.mem_cons.mp hc).elim (fun h => hud h) hnu) e he

/-- Soundness scheme for the traversal: a predicate closed under direct
dependencies that holds on every frame element and every result element
holds on the final result. -/
theorem collect_sound (g : DependencyGraph) (P : String → Prop)
    (hP : ∀ d, P d → ∀ e ∈ GetDirectDeps g d, P e) (stack : List (List String))
    (visited result : List String) (hstack : ∀ f ∈ stack, ∀ x ∈ f, P x)
    (hres : ∀ x ∈ result, P x) :
    ∀ x ∈ (collect g stack visited result).2, P x := by
  induction stack, visited, result using collect.induct g with
  | case1 visited result =>
    rw [collect]
    exact hres
  | case2 stack visited result ih =>
    rw [collect]
    exact ih (fun f hf => hstack f (List.mem_cons_of_mem _ hf)) hres
  | case3 d ds stack visited result hmem ih =>
    rw [collect, if_pos hmem]
    refine ih ?_ ?_
    · intro f hf
      rcases List.mem_cons.mp hf with h | h
      · subst h
        exact fun x hx => hstack _ (List.mem_cons_self _ _) x (List.mem_cons_of_mem _ hx)
      · exact hstack f (List.mem_cons_of_mem _ h)
    · intro x hx
      rcases List.mem_append.mp hx with h | h
      · exact hres x h
      · have : x = d := by simpa using h
        subst this
        exact hstack _ (List.mem_cons_self _ _) x (List.mem_cons_self _ _)
  | case4 d ds stack visited result hmem ih =>
    rw [collect, if_neg hmem]
    have hPd : P d := hstack _ (List.mem_cons_self _ _) d (List.mem_cons_self _ _)
    refine ih ?_ ?_
    · intro f hf
      rcases List.mem_cons.mp hf with h | h
      · subst h
        exact fun x hx => hP d hPd x hx
      · rcases List.mem_cons.mp h with h2 | h2
        · subst h2
          exact fun x hx => hstack _ (List.mem_cons_self _ _) x (List.mem_cons_of_mem _ hx)
        · exact hstack f (List.mem_cons_of_mem _ h2)
    · intro x hx
      rcases List.mem_append.mp hx with h | h
      · exact hres x h
      · have : x = d := by simpa using h
        subst this
        exact hPd

/-- Extending reachability by one edge. -/
theorem reachStar_tail {g : DependencyGraph} {p u d : String}
    (h : ReachStar g p u) (hd : d ∈ GetDirectDeps g u) : ReachStar g p d := by
  obtain ⟨n, hn⟩ := h
  exact ⟨n + 1, ReachN.tail hn hd⟩

/-- Every node reachable from `p` is visited by `GetAllDeps`'s traversal. -/
theorem reachStar_mem_collect_visited (g : DependencyGraph) {p u : String}
    (h : ReachStar g p u) :
    u ∈ (collect g [GetDirectDeps g p] [p] []).1 := by
  obtain ⟨n, hn⟩ := h
  induction hn with
  | refl => exact collect_visited_sub g _ _ _ p (by simp)
  | tail hp hd ih =>
    rename_i q w m
    by_cases hqp : q = p
    · subst hqp
      exact (collect_frames g _ _ _ (GetDirectDeps g q) (by simp) w hd).2
    · exact (collect_expand g _ _ _ q ih (by simpa using hqp) w hd).2

/-- Completeness half of the `GetAllDeps` characterization. -/
theorem mem_GetAllDeps_of_reachPlus {g : DependencyGraph} {p x : String}
    (h : ReachPlus g p x) : x ∈ GetAllDeps g p := by
  obtain ⟨u, hstar, hx⟩ := h
  unfold GetAllDeps
  by_cases hup : u = p
  · subst hup
    exact (collect_frames g _ _ _ (GetDirectDeps g u) (by simp) x hx).1
  · have hu := reachStar_mem_collect_visited g hstar
    exact (collect_expand g _ _ _ u hu (by simpa using hup) x hx).1

/-- Soundness half of the `GetAllDeps` characterization. -/
theorem reachPlus_of_mem_GetAllDeps {g : DependencyGraph} {p x : String}
    (h : x ∈ GetAllDeps g p) : ReachPlus g p x := by
  refine collect_sound g (ReachPlus g p) ?_ _ _ _ ?_ ?_ x h
  · rintro d ⟨u, hstar, hd⟩ e he
    exact ⟨d, reachStar_tail hstar hd, he⟩
  · intro f hf x hx
    have : f = GetDirectDeps g p := by simpa using hf
    subst this
    exact ⟨p, ⟨0, ReachN.refl p⟩, hx⟩
  · simp

/-- Membership characterization of `GetAllDeps`. -/
theorem mem_GetAllDeps_iff (g : DependencyGraph) (p x : String) :
    x ∈ GetAllDeps g p ↔ ReachPlus g p x :=
  ⟨reachPlus_of_mem_GetAllDeps, mem_GetAllDeps_of_reachPlus⟩

/-- Claim C1 (counterexample): on the diamond-and-cycle graph `gDC`, the
traversal returns the shared dependency `d` twice and returns `a` itself,
refuting both the self-exclusion and the appears-exactly-once parts of the
claim. -/
theorem c1_counterexample :
    GetAllDeps gDC "a" = ["b", "d", "a", "c", "d"] ∧
      "a" ∈ GetAllDeps gDC "a" ∧ ¬ (GetAllDeps gDC "a").Nodup := by
  have h : GetAllDeps gDC "a" = ["b", "d", "a", "c", "d"] := by
    simp [GetAllDeps, collect, GetDirectDeps, gDC, List.find?]
  refine ⟨h, ?_, ?_⟩ <;> rw [h] <;> decide

/-- Claim C1 (amended): `GetAllDeps g p` returns exactly the packages
reachable from `p` along one or more import edges — `p` itself is excluded
precisely when `p` does not lie on a cycle reachable from itself, and a
package sharing several import paths may appear more than once. -/
theorem c1_getAllDeps_mem (g : DependencyGraph) (p x : String) :
    x ∈ GetAllDeps g p ↔ ReachPlus g p x :=
  mem_GetAllDeps_iff g p x

/-- Worklist composition: running the traversal over concatenated stacks
equals running it over the first part and continuing with the second. -/
theorem collect_append (g : DependencyGraph) (fs : List (List String))
    (visited result : List String) (stack : List (List String)) :
    collect g (fs ++ stack) visited result =
      collect g stack (collect g fs visited result).1 (collect g fs visited result).2 := by
  induction fs, visited, result using collect.induct g with
  | case1 visited result =>
    simp only [List.nil_append]
    rw [show collect g [] visited result = (visited, result) from by rw [collect]]
  | case2 stack' visited result ih =>
    simp only [List.cons_append]
    rw [show collect g (([] : List String) :: (stack' ++ stack)) visited result =
          collect g (stack' ++ stack) visited result from by rw [collect],
        show collect g (([] : List String) :: stack') visited result =
          collect g stack' visited result from by rw [collect]]
    exact ih
  | case3 d ds stack' visited result hmem ih =>
    simp only [List.cons_append]
    rw [collect, if_pos hmem, collect, if_pos hmem]
    exact ih
  | case4 d ds stack' visited result hmem ih =>
    simp only [List.cons_append]
    rw [collect, if_neg hmem, collect, if_neg hmem]
    simpa using ih

/-- The inner loop of the fuel-indexed recursion agrees with a pending frame
of the worklist traversal, given the recursion hypothesis for fuel `n`. -/
theorem collectAllDepsFuel_fold (g : DependencyGraph) (n : Nat)
    (ihn : ∀ p v r, unvisitedCount g v + 1 ≤ n →
      collectAllDepsFuel g n p v r =
        if p ∈ v then (v, r) else collect g [GetDirectDeps g p] (p :: v) r) :
    ∀ (ds : List String) (v r : List String), unvisitedCount g v + 1 ≤ n →
      ds.foldl (fun vr dep => collectAllDepsFuel g n dep vr.1 (vr.2 ++ [dep])) (v, r) =
        collect g [ds] v r := by
  intro ds
  induction ds with
  | nil =>
    intro v r h
    rw [show collect g [([] : List String)] v r = (v, r) from by simp only [collect]]
    rfl
  | cons d ds ih =>
    intro v r h
    simp only [List.foldl_cons]
    rw [ihn d v (r ++ [d]) h]
    by_cases hd : d ∈ v
    · rw [if_pos hd, ih v (r ++ [d]) h]
      rw [show collect g [d :: ds] v r = collect g (ds :: []) v (r ++ [d]) from by
        rw [collect, if_pos hd]]
    · rw [if_neg hd]
      have hsub : ∀ x ∈ v, x ∈ (collect g [GetDirectDeps g d] (d :: v) (r ++ [d])).1 :=
        fun x hx =>
          collect_visited_sub g _ _ _ x (List.mem_cons_of_mem _ hx)
      have hle : unvisitedCount g (collect g [GetDirectDeps g d] (d :: v) (r ++ [d])).1 + 1 ≤ n :=
        le_trans (Nat.succ_le_succ (unvisitedCount_anti g hsub)) h
      rw [show (collect g [GetDirectDeps g d] (d :: v) (r ++ [d]) :
            List String × List String) =
          ((collect g [GetDirectDeps g d] (d :: v) (r ++ [d])).1,
           (collect g [GetDirectDeps g d] (d :: v) (r ++ [d])).2) from rfl,
        ih _ _ hle]
      rw [show collect g [d :: ds] v r =
            collect g ([GetDirectDeps g d] ++ [ds]) (d :: v) (r ++ [d]) from by
          rw [collect, if_neg hd]
          rfl]
      rw [collect_append]

/-- The fuel-indexed recursion computes the worklist traversal once the fuel
dominates the unvisited count. -/
theorem collectAllDepsFuel_spec (g : DependencyGraph) :
    ∀ (fuel : Nat) (p : String) (v r : List String), unvisitedCount g v + 1 ≤ fuel →
      collectAllDepsFuel g fuel p v r =
        if p ∈ v then (v, r) else collect g [GetDirectDeps g p] (p :: v) r := by
  intro fuel
  induction fuel with
  | zero => intro p v r h; omega
  | succ n ihn =>
    intro p v r h
    rw [collectAllDepsFuel]
    by_cases hp : p ∈ v
    · rw [if_pos hp, if_pos hp]
    · rw [if_neg hp, if_neg hp]
      by_cases hpn : p ∈ graphNodes g
      · have hlt := unvisitedCount_cons_lt g hpn hp
        exact collectAllDepsFuel_fold g n ihn (GetDirectDeps g p) (p :: v) r (by omega)
      · rw [getDirectDeps_eq_nil_of_not_node g hpn]
        rw [show collect g [([] : List String)] (p :: v) r = (p :: v, r) from by
              simp only [collect]]
        rfl

/-- Claim C8: the transitive-dependency traversal terminates on every graph,
cyclic imports included — formally, the fuel-indexed form of
`collectAllDeps` is stable at the same value `GetAllDeps g p` for every fuel
beyond the number of packages: the visited set stops the recursion at that
depth. -/
theorem c8_collectAllDeps_terminates (g : DependencyGraph) (p : String) (fuel : Nat)
    (h : (graphNodes g).length + 1 ≤ fuel) :
    (collectAllDepsFuel g fuel p [] []).2 = GetAllDeps g p := by
  have h0 : unvisitedCount g [] ≤ (graphNodes g).length := by
    unfold unvisitedCount
    calc ((graphNodes g).toFinset \ ([] : List String).toFinset).card
        ≤ (graphNodes g).toFinset.card := Finset.card_le_card Finset.sdiff_subset
      _ ≤ (graphNodes g).length := (graphNodes g).toFinset_card_le
  rw [collectAllDepsFuel_spec g fuel p [] [] (by omega), if_neg (by simp)]
  rfl

/-- Claim C8 (witness): on the two-package import cycle, fuel `3` (the
package count plus one) already computes `GetAllDeps`. -/
theorem c8_witness :
    (graphNodes gCycle).length + 1 ≤ 3 ∧
      (collectAllDepsFuel gCycle 3 "a" [] []).2 = GetAllDeps gCycle "a" :=
  ⟨by decide, c8_collectAllDeps_terminates gCycle "a" 3 (by decide)⟩

/-! ## Theorems: breadth-first dependency chains -/

/-- Zero-length reachability pins the endpoint. -/
theorem reachN_zero {g : DependencyGraph} {x u : String} (h : ReachN g x u 0) : u = x := by
  cases h
  rfl

/-- Prepending an edge to a reachability chain. -/
theorem reachN_head_cons {g : DependencyGraph} {x z y : String} {n : Nat}
    (hz : z ∈ GetDirectDeps g x) (h : ReachN g z y n) : ReachN g x y (n + 1) := by
  induction h with
  | refl => exact ReachN.tail (ReachN.refl x) hz
  | tail hp hd ih => exact ReachN.tail ih hd

/-- Splitting the first edge off a nonempty reachability chain. -/
theorem reachN_pos_decomp {g : DependencyGraph} {x y : String} {n : Nat}
    (h : ReachN g x y n) : 1 ≤ n → ∃ w ∈ GetDirectDeps g x, ReachN g w y (n - 1) := by
  induction h with
  | refl => omega
  | tail hp hd ih =>
    rename_i u v m
    intro _
    rcases Nat.eq_zero_or_pos m with hm | hm
    · subst hm
      have := reachN_zero hp
      subst this
      exact ⟨v, hd, ReachN.refl v⟩
    · obtain ⟨w, hw, hreach⟩ := ih hm
      refine ⟨w, hw, ?_⟩
      have : m - 1 + 1 = m := by omega
      simpa [this] using ReachN.tail hreach hd

/-- A chain list denotes a reachability chain of its edge count. -/
theorem isPath_reachN {g : DependencyGraph} :
    ∀ (l2 : List String) (x y : String),
      List.Chain' (fun a b => b ∈ GetDirectDeps g a) (x :: l2) →
      (x :: l2).getLast? = some y → ReachN g x y l2.length := by
  intro l2
  induction l2 with
  | nil =>
    intro x y _ hlast
    simp at hlast
    subst hlast
    exact ReachN.refl _
  | cons z rest ih =>
    intro x y hchain hlast
    rw [List.chain'_cons] at hchain
    have hlast2 : (z :: rest).getLast? = some y := by
      rw [List.getLast?_cons_cons] at hlast
      exact hlast
    exact reachN_head_cons hchain.1 (ih z y hchain.2 hlast2)

/-- A reachability chain yields a chain list with matching length. -/
theorem reachN_isPath {g : DependencyGraph} {x y : String} {n : Nat}
    (h : ReachN g x y n) :
    ∃ l : List String, IsPath g l x y ∧ l.length = n + 1 := by
  induction h with
  | refl =>
    exact ⟨[x], ⟨rfl, rfl, List.chain'_singleton x⟩, rfl⟩
  | tail hp hd ih =>
    rename_i u v m
    obtain ⟨l, ⟨hhead, hlast, hchain⟩, hlen⟩ := ih
    refine ⟨l ++ [v], ⟨?_, ?_, ?_⟩, by simp [hlen]⟩
    · cases l with
      | nil => simp at hhead
      | cons a l' => simpa using hhead
    · simp
    · rw [List.chain'_append]
      refine ⟨hchain, List.chain'_singleton v, ?_⟩
      intro xx hxx yy hyy
      simp at hyy
      subst hyy
      rw [hlast] at hxx
      cases hxx
      exact hd

/-- The starting visited set survives the breadth-first search. -/
theorem bfs_visited_sub (g : DependencyGraph) (t : String) :
    ∀ (q : List (String × List String)) (v : List String),
      ∀ x ∈ v, x ∈ (bfs g t q v).2 := by
  intro q v
  induction q, v using bfs.induct g t with
  | case1 v => intro x hx; rw [bfs]; exact hx
  | case2 cur path rest v hmem ih =>
    rw [bfs, if_pos hmem]
    exact ih
  | case3 cur path rest v hmem hhit =>
    rw [bfs, if_neg hmem, if_pos hhit]
    intro x hx
    exact List.mem_cons_of_mem _ hx
  | case4 cur path rest v hmem hnh ih =>
    rw [bfs, if_neg hmem, if_neg hnh]
    intro x hx
    exact ih x (List.mem_cons_of_mem _ hx)

/-- When the search exhausts the queue, every queued node has been visited. -/
theorem bfs_none_queue_visited (g : DependencyGraph) (t : String) :
    ∀ (q : List (String × List String)) (v : List String),
      (bfs g t q v).1 = none → ∀ e ∈ q, e.1 ∈ (bfs g t q v).2 := by
  intro q v
  induction q, v using bfs.induct g t with
  | case1 v => simp
  | case2 cur path rest v hmem ih =>
    rw [bfs, if_pos hmem]
    intro hnone e he
    rcases List.mem_cons.mp he with h | h
    · subst h
      exact bfs_visited_sub g t rest v cur hmem
    · exact ih hnone e h
  | case3 cur path rest v hmem hhit =>
    rw [bfs, if_neg hmem, if_pos hhit]
    intro hnone
    simp at hnone
  | case4 cur path rest v hmem hnh ih =>
    rw [bfs, if_neg hmem, if_neg hnh]
    intro hnone e he
    rcases List.mem_cons.mp he with h | h
    · subst h
      exact bfs_visited_sub g t _ _ cur (List.mem_cons_self _ _)
    · exact ih hnone e (List.mem_append_left _ h)

/-- When the search exhausts the queue, every node it visited was fully
expanded: the target is not among its direct dependencies, and those
dependencies were visited too. -/
theorem bfs_none_expand (g : DependencyGraph) (t : String) :
    ∀ (q : List (String × List String)) (v : List String),
      (bfs g t q v).1 = none → ∀ u, u ∈ (bfs g t q v).2 → u ∉ v →
        t ∉ GetDirectDeps g u ∧ ∀ e ∈ GetDirectDeps g u, e ∈ (bfs g t q v).2 := by
  intro q v
  induction q, v using bfs.induct g t with
  | case1 v =>
    intro _ u hu hnu
    rw [bfs] at hu
    exact absurd hu hnu
  | case2 cur path rest v hmem ih =>
    rw [bfs, if_pos hmem]
    exact ih
  | case3 cur path rest v hmem hhit =>
    rw [bfs, if_neg hmem, if_pos hhit]
    intro hnone
    simp at hnone
  | case4 cur path rest v hmem hnh ih =>
    rw [bfs, if_neg hmem, if_neg hnh]
    intro hnone u hu hnu
    by_cases huc : u = cur
    · subst huc
      refine ⟨hnh, ?_⟩
      intro e he
      have hq : (e, path ++ [e]) ∈
          rest ++ (GetDirectDeps g u).map (fun dep => (dep, path ++ [dep])) :=
        List.mem_append_right _ (List.mem_map.mpr ⟨e, he, rfl⟩)
      exact bfs_none_queue_visited g t _ _ hnone (e, path ++ [e]) hq
    · exact ih hnone u hu
        (fun hc => (List.mem_cons.mp hc).elim (fun h => huc h) hnu)

/-- Validity of the breadth-first result: when every queue entry carries a
chain from `fromPkg` to its own node, a successful search returns a chain
from `fromPkg` to the target. -/
theorem bfs_valid (g : DependencyGraph) (t fromPkg : String) :
    ∀ (q : List (String × List String)) (v : List String),
      (∀ e ∈ q, e.2.head? = some fromPkg ∧ e.2.getLast? = some e.1 ∧
        List.Chain' (fun a b => b ∈ GetDirectDeps g a) e.2) →
      ∀ l, (bfs g t q v).1 = some l → IsPath g l fromPkg t := by
  intro q v
  induction q, v using bfs.induct g t with
  | case1 v => simp [bfs]
  | case2 cur path rest v hmem ih =>
    rw [bfs, if_pos hmem]
    intro hq
    exact ih (fun e he => hq e (List.mem_cons_of_mem _ he))
  | case3 cur path rest v hmem hhit =>
    rw [bfs, if_neg hmem, if_pos hhit]
    intro hq l hl
    simp at hl
    subst hl
    obtain ⟨hhead, hlast, hchain⟩ := hq (cur, path) (List.mem_cons_self _ _)
    refine ⟨?_, by simp, ?_⟩
    · cases path with
      | nil => simp at hhead
      | cons a path' => simpa using hhead
    · rw [List.chain'_append]
      refine ⟨hchain, List.chain'_singleton t, ?_⟩
      intro xx hxx yy hyy
      simp at hyy
      subst hyy
      rw [hlast] at hxx
      cases hxx
      exact hhit
  | case4 cur path rest v hmem hnh ih =>
    rw [bfs, if_neg hmem, if_neg hnh]
    intro hq
    refine ih ?_
    intro e he
    rcases List.mem_append.mp he with h | h
    · exact hq e (List.mem_cons_of_mem _ h)
    · obtain ⟨d, hd, hde⟩ := List.mem_map.mp h
      subst hde
      obtain ⟨hhead, hlast, hchain⟩ := hq (cur, path) (List.mem_cons_self _ _)
      refine ⟨?_, by simp, ?_⟩
      · cases path with
        | nil => simp at hhead
        | cons a path' => simpa using hhead
      · rw [List.chain'_append]
        refine ⟨hchain, List.chain'_singleton d, ?_⟩
        intro xx hxx yy hyy
        simp at hyy
        subst hyy
        rw [hlast] at hxx
        cases hxx
        exact hd

/-- A successful `getDependencyChain` result is a valid chain. -/
theorem getDependencyChain_valid (g : DependencyGraph) (a b : String) (l : List String)
    (h : getDependencyChain g a b = some l) : IsPath g l a b := by
  unfold getDependencyChain at h
  by_cases hab : a = b
  · subst hab
    rw [if_pos (by simp)] at h
    cases h
    exact ⟨rfl, rfl, List.chain'_singleton a⟩
  · rw [if_neg (by simpa using hab)] at h
    refine bfs_valid g b a [(a, [a])] [] ?_ l h
    intro e he
    simp at he
    subst he
    exact ⟨rfl, rfl, List.chain'_singleton a⟩

/-- Reachability guarantees that the breadth-first search finds a chain. -/
theorem getDependencyChain_isSome (g : DependencyGraph) {a b : String}
    (h : ReachStar g a b) : ∃ l, getDependencyChain g a b = some l := by
  unfold getDependencyChain
  by_cases hab : a = b
  · exact ⟨[a], by rw [if_pos (by simpa using hab)]⟩
  · rw [if_neg (by simpa using hab)]
    cases hres : (bfs g b [(a, [a])] []).1 with
    | some l => exact ⟨l, rfl⟩
    | none =>
      exfalso
      have hstarvis : ∀ u, ReachStar g a u → u ∈ (bfs g b [(a, [a])] []).2 := by
        rintro u ⟨n, hn⟩
        induction hn with
        | refl =>
          exact bfs_none_queue_visited g b _ _ hres (a, [a]) (by simp)
        | tail hp hd ihp =>
          rename_i qq ww mm
          exact (bfs_none_expand g b _ _ hres qq ihp (by simp)).2 ww hd
      obtain ⟨n, hn⟩ := h
      cases n with
      | zero => exact hab (reachN_zero hn).symm
      | succ m =>
        cases hn with
        | tail hp hd =>
          rename_i u
          have hu : u ∈ (bfs g b [(a, [a])] []).2 := hstarvis u ⟨m, hp⟩
          exact (bfs_none_expand g b _ _ hres u hu (by simp)).1 hd

/-- The ghost search computes the same chain as the plain search. -/
theorem bfsG_eq_bfs (g : DependencyGraph) (t : String) :
    ∀ (q : List (String × List String)) (vG : List (String × Nat)),
      bfsG g t q vG = (bfs g t q (vG.map Prod.fst)).1 := by
  intro q vG
  induction q, vG using bfsG.induct g t with
  | case1 vG => rw [bfsG, bfs]
  | case2 cur path rest vG hmem ih =>
    rw [bfsG, if_pos hmem, bfs, if_pos hmem]
    exact ih
  | case3 cur path rest vG hmem hhit =>
    rw [bfsG, if_neg hmem, if_pos hhit, bfs, if_neg hmem, if_pos hhit]
  | case4 cur path rest vG hmem hnh ih =>
    rw [bfsG, if_neg hmem, if_neg hnh, bfs, if_neg hmem, if_neg hnh]
    simpa using ih

/-- Minimality of the ghost breadth-first search.  The invariants: queue path
lengths are sorted (`Pairwise ≤`) and spread by at most one; every recorded
visit depth bounds every queued path length; every visited node has, for each
non-target dependency, either a visited certificate one deeper or a queued
certificate at most one longer; and no visited node has the target among its
direct dependencies.  Under them, every reachability chain to the target from
a queued node `(x, p)` (resp. a visited node at depth `ℓ`) forces a result of
length at most `p.length + m` (resp. `ℓ + m`). -/
theorem bfsG_min (g : DependencyGraph) (t : String) :
    ∀ (q : List (String × List String)) (vG : List (String × Nat)),
      List.Pairwise (fun (e e' : String × List String) => e.2.length ≤ e'.2.length) q →
      (∀ e ∈ q, ∀ e' ∈ q, e'.2.length ≤ e.2.length + 1) →
      (∀ xv ∈ vG, ∀ e ∈ q, Prod.snd xv ≤ e.2.length) →
      (∀ xv ∈ vG, ∀ y ∈ GetDirectDeps g (Prod.fst xv), y ≠ t →
        (∃ yv ∈ vG, Prod.fst yv = y ∧ Prod.snd yv ≤ Prod.snd xv + 1) ∨
        (∃ e ∈ q, e.1 = y ∧ e.2.length ≤ Prod.snd xv + 1)) →
      (∀ xv ∈ vG, t ∉ GetDirectDeps g (Prod.fst xv)) →
      (∀ x p m, (x, p) ∈ q → ReachN g x t m → 1 ≤ m →
        ∃ l, bfsG g t q vG = some l ∧ l.length ≤ p.length + m) ∧
      (∀ xv m, xv ∈ vG → ReachN g (Prod.fst xv) t m → 1 ≤ m →
        ∃ l, bfsG g t q vG = some l ∧ l.length ≤ Prod.snd xv + m) := by
  intro q vG
  induction q, vG using bfsG.induct g t with
  | case1 vG =>
    intro h1 h2 h3 h4 h5
    constructor
    · intro x p m hxp
      simp at hxp
    · intro xv m hxv hre hm
      exfalso
      have key : ∀ mm, ∀ xv ∈ vG, ReachN g (Prod.fst xv) t mm → 1 ≤ mm → False := by
        intro mm
        induction mm using Nat.strong_induction_on with
        | _ mm ihm =>
          intro xv hxv hre hmm
          obtain ⟨w, hw, hwre⟩ := reachN_pos_decomp hre hmm
          by_cases hwt : w = t
          · subst hwt
            exact h5 xv hxv hw
          · rcases h4 xv hxv w hw hwt with ⟨yv, hyv, hyv1, _⟩ | ⟨e, he, _⟩
            · by_cases hmm1 : mm = 1
              · subst hmm1
                exact hwt (reachN_zero hwre).symm
              · refine ihm (mm - 1) (by omega) yv hyv ?_ (by omega)
                rw [hyv1]
                exact hwre
            · simp at he
      exact key m xv hxv hre hm
  | case2 cur path rest vG hmem ih =>
    intro h1 h2 h3 h4 h5
    rw [bfsG, if_pos hmem]
    have h1' := h1.of_cons
    have h2' : ∀ e ∈ rest, ∀ e' ∈ rest, e'.2.length ≤ e.2.length + 1 :=
      fun e he e' he' =>
        h2 e (List.mem_cons_of_mem _ he) e' (List.mem_cons_of_mem _ he')
    have h3' : ∀ xv ∈ vG, ∀ e ∈ rest, Prod.snd xv ≤ e.2.length :=
      fun xv hxv e he => h3 xv hxv e (List.mem_cons_of_mem _ he)
    have h4' : ∀ xv ∈ vG, ∀ y ∈ GetDirectDeps g (Prod.fst xv), y ≠ t →
        (∃ yv ∈ vG, Prod.fst yv = y ∧ Prod.snd yv ≤ Prod.snd xv + 1) ∨
        (∃ e ∈ rest, e.1 = y ∧ e.2.length ≤ Prod.snd xv + 1) := by
      intro xv hxv y hy hyt
      rcases h4 xv hxv y hy hyt with hcase | ⟨e, he, he1, he2⟩
      · exact Or.inl hcase
      · rcases List.mem_cons.mp he with rfl | he'
        · obtain ⟨cv, hcv, hcv1⟩ := List.mem_map.mp hmem
          refine Or.inl ⟨cv, hcv, by rw [hcv1]; exact he1, ?_⟩
          have := h3 cv hcv (cur, path) (List.mem_cons_self _ _)
          simp at this he2
          omega
        · exact Or.inr ⟨e, he', he1, he2⟩
    have IH := ih h1' h2' h3' h4' h5
    constructor
    · intro x p m hxp hre hm
      rcases List.mem_cons.mp hxp with heq | hxp'
      · cases heq
        obtain ⟨cv, hcv, hcv1⟩ := List.mem_map.mp hmem
        obtain ⟨l, hl, hlen⟩ := IH.2 cv m hcv (by rw [hcv1]; exact hre) hm
        refine ⟨l, hl, ?_⟩
        have := h3 cv hcv (cur, path) (List.mem_cons_self _ _)
        simp at this
        omega
      · exact IH.1 x p m hxp' hre hm
    · exact IH.2
  | case3 cur path rest vG hmem hhit =>
    intro h1 h2 h3 h4 h5
    rw [bfsG, if_neg hmem, if_pos hhit]
    have hmin : ∀ e ∈ (cur, path) :: rest, path.length ≤ e.2.length := by
      intro e he
      rcases List.mem_cons.mp he with rfl | he'
      · exact le_refl _
      · exact (List.pairwise_cons.mp h1).1 e he'
    constructor
    · intro x p m hxp hre hm
      refine ⟨path ++ [t], rfl, ?_⟩
      have := hmin (x, p) hxp
      simp at this ⊢
      omega
    · intro xv m hxv hre hm
      refine ⟨path ++ [t], rfl, ?_⟩
      have key : ∀ mm, ∀ xv ∈ vG, ReachN g (Prod.fst xv) t mm → 1 ≤ mm →
          path.length + 1 ≤ Prod.snd xv + mm := by
        intro mm
        induction mm using Nat.strong_induction_on with
        | _ mm ihm =>
          intro xv hxv hre hmm
          obtain ⟨w, hw, hwre⟩ := reachN_pos_decomp hre hmm
          by_cases hwt : w = t
          · subst hwt
            exact absurd hw (h5 xv hxv)
          · by_cases hmm1 : mm = 1
            · subst hmm1
              exact absurd (reachN_zero hwre).symm hwt
            · have hmm2 : 2 ≤ mm := by omega
              rcases h4 xv hxv w hw hwt with ⟨yv, hyv, hyv1, hyv2⟩ | ⟨e, he, he1, he2⟩
              · have := ihm (mm - 1) (by omega) yv hyv (by rw [hyv1]; exact hwre) (by omega)
                omega
              · have := hmin e he
                omega
      have := key m xv hxv hre hm
      simp
      omega
  | case4 cur path rest vG hmem hnh ih =>
    intro h1 h2 h3 h4 h5
    rw [bfsG, if_neg hmem, if_neg hnh]
    have hmin : ∀ e ∈ (cur, path) :: rest, path.length ≤ e.2.length := by
      intro e he
      rcases List.mem_cons.mp he with rfl | he'
      · exact le_refl _
      · exact (List.pairwise_cons.mp h1).1 e he'
    have hpwNew : ∀ (ds : List String),
        List.Pairwise (fun (e e' : String × List String) => e.2.length ≤ e'.2.length)
          (ds.map (fun dep => (dep, path ++ [dep]))) := by
      intro ds
      induction ds with
      | nil => simp
      | cons d ds ihd =>
        simp only [List.map_cons, List.pairwise_cons]
        refine ⟨?_, ihd⟩
        intro e' he'
        obtain ⟨d', hd', rfl⟩ := List.mem_map.mp he'
        simp
    have h1' : List.Pairwise (fun (e e' : String × List String) => e.2.length ≤ e'.2.length)
        (rest ++ (GetDirectDeps g cur).map (fun dep => (dep, path ++ [dep]))) := by
      rw [List.pairwise_append]
      refine ⟨h1.of_cons, hpwNew _, ?_⟩
      intro e he e' he'
      obtain ⟨d, hd, rfl⟩ := List.mem_map.mp he'
      have := h2 (cur, path) (List.mem_cons_self _ _) e (List.mem_cons_of_mem _ he)
      simp at this ⊢
      omega
    have h2' : ∀ e ∈ rest ++ (GetDirectDeps g cur).map (fun dep => (dep, path ++ [dep])),
        ∀ e' ∈ rest ++ (GetDirectDeps g cur).map (fun dep => (dep, path ++ [dep])),
        e'.2.length ≤ e.2.length + 1 := by
      intro e he e' he'
      rcases List.mem_append.mp he with he | he <;>
        rcases List.mem_append.mp he' with he' | he'
      · exact h2 e (List.mem_cons_of_mem _ he) e' (List.mem_cons_of_mem _ he')
      · obtain ⟨d, hd, rfl⟩ := List.mem_map.mp he'
        have := hmin e (List.mem_cons_of_mem _ he)
        simp
        omega
      · obtain ⟨d, hd, rfl⟩ := List.mem_map.mp he
        have := h2 (cur, path) (List.mem_cons_self _ _) e' (List.mem_cons_of_mem _ he')
        simp at this ⊢
        omega
      · obtain ⟨d, hd, rfl⟩ := List.mem_map.mp he
        obtain ⟨d', hd', rfl⟩ := List.mem_map.mp he'
        simp
    have h3' : ∀ xv ∈ (cur, path.length) :: vG,
        ∀ e ∈ rest ++ (GetDirectDeps g cur).map (fun dep => (dep, path ++ [dep])),
        Prod.snd xv ≤ e.2.length := by
      intro xv hxv e he
      rcases List.mem_cons.mp hxv with rfl | hxv'
      · rcases List.mem_append.mp he with he | he
        · exact hmin e (List.mem_cons_of_mem _ he)
        · obtain ⟨d, hd, rfl⟩ := List.mem_map.mp he
          simp
      · rcases List.mem_append.mp he with he | he
        · exact h3 xv hxv' e (List.mem_cons_of_mem _ he)
        · obtain ⟨d, hd, rfl⟩ := List.mem_map.mp he
          have := h3 xv hxv' (cur, path) (List.mem_cons_self _ _)
          simp at this ⊢
          omega
    have h4' : ∀ xv ∈ (cur, path.length) :: vG,
        ∀ y ∈ GetDirectDeps g (Prod.fst xv), y ≠ t →
        (∃ yv ∈ (cur, path.length) :: vG, Prod.fst yv = y ∧
          Prod.snd yv ≤ Prod.snd xv + 1) ∨
        (∃ e ∈ rest ++ (GetDirectDeps g cur).map (fun dep => (dep, path ++ [dep])),
          e.1 = y ∧ e.2.length ≤ Prod.snd xv + 1) := by
      intro xv hxv y hy hyt
      rcases List.mem_cons.mp hxv with rfl | hxv'
      · refine Or.inr ⟨(y, path ++ [y]), ?_, rfl, by simp⟩
        exact List.mem_append_right _ (List.mem_map.mpr ⟨y, hy, rfl⟩)
      · rcases h4 xv hxv' y hy hyt with ⟨yv, hyv, hyv1, hyv2⟩ | ⟨e, he, he1, he2⟩
        · exact Or.inl ⟨yv, List.mem_cons_of_mem _ hyv, hyv1, hyv2⟩
        · rcases List.mem_cons.mp he with rfl | he'
          · refine Or.inl ⟨(cur, path.length), List.mem_cons_self _ _, he1, ?_⟩
            simpa using he2
          · exact Or.inr ⟨e, List.mem_append_left _ he', he1, he2⟩
    have h5' : ∀ xv ∈ (cur, path.length) :: vG, t ∉ GetDirectDeps g (Prod.fst xv) := by
      intro xv hxv
      rcases List.mem_cons.mp hxv with rfl | hxv'
      · exact hnh
      · exact h5 xv hxv'
    have IH := ih h1' h2' h3' h4' h5'
    constructor
    · intro x p m hxp hre hm
      rcases List.mem_cons.mp hxp with heq | hxp'
      · cases heq
        obtain ⟨w, hw, hwre⟩ := reachN_pos_decomp hre hm
        by_cases hwt : w = t
        · subst hwt
          exact absurd hw hnh
        · have hm2 : 2 ≤ m := by
            by_contra hcon
            have hm1 : m = 1 := by omega
            subst hm1
            exact hwt (reachN_zero hwre).symm
          obtain ⟨l, hl, hlen⟩ := IH.1 w (path ++ [w]) (m - 1)
            (List.mem_append_right _ (List.mem_map.mpr ⟨w, hw, rfl⟩)) hwre (by omega)
          refine ⟨l, hl, ?_⟩
          simp at hlen
          omega
      · exact IH.1 x p m (List.mem_append_left _ hxp') hre hm
    · intro xv m hxv hre hm
      exact IH.2 xv m (List.mem_cons_of_mem _ hxv) hre hm

/-- A successful `getDependencyChain` result is a shortest chain. -/
theorem getDependencyChain_shortest (g : DependencyGraph) (a b : String) (l : List String)
    (h : getDependencyChain g a b = some l) :
    ∀ l', IsPath g l' a b → l.length ≤ l'.length := by
  rintro l' ⟨hhead, hlast, hchain⟩
  unfold getDependencyChain at h
  by_cases hab : a = b
  · rw [if_pos (by simpa using hab)] at h
    cases h
    cases l' with
    | nil => simp at hhead
    | cons c l2 => simp
  · rw [if_neg (by simpa using hab)] at h
    obtain ⟨l2, rfl⟩ : ∃ l2, l' = a :: l2 := by
      cases l' with
      | nil => simp at hhead
      | cons c l2 =>
        simp at hhead
        subst hhead
        exact ⟨l2, rfl⟩
    have hre : ReachN g a b l2.length := isPath_reachN l2 a b hchain hlast
    have hm : 1 ≤ l2.length := by
      cases l2 with
      | nil => exact absurd (reachN_zero hre).symm hab
      | cons z l3 => simp
    have hmin := (bfsG_min g b [(a, [a])] [] (by simp)
      (by
        intro e he e' he'
        simp at he he'
        subst he
        subst he'
        simp)
      (by simp) (by simp) (by simp)).1 a [a] l2.length (by simp) hre hm
    obtain ⟨l0, hl0, hlen⟩ := hmin
    have heq : (bfs g b [(a, [a])] []).1 = some l0 := by
      have := bfsG_eq_bfs g b [(a, [a])] []
      simp at this
      rw [← this]
      exact hl0
    rw [h] at heq
    cases heq
    simp at hlen ⊢
    omega

/-! ## Theorems: reverse dependencies -/

/-- Membership through the deduplication helper. -/
theorem mem_uniqueStringsAux (l : List String) :
    ∀ (seen : List String) (x : String),
      x ∈ uniqueStringsAux l seen ↔ x ∈ l ∧ x ∉ seen := by
  induction l with
  | nil => intro seen x; simp [uniqueStringsAux]
  | cons v rest ih =>
    intro seen x
    by_cases hv : v ∈ seen
    · rw [uniqueStringsAux, if_pos hv, ih]
      constructor
      · rintro ⟨h1, h2⟩
        exact ⟨List.mem_cons_of_mem _ h1, h2⟩
      · rintro ⟨h1, h2⟩
        rcases List.mem_cons.mp h1 with rfl | h1
        · exact absurd hv h2
        · exact ⟨h1, h2⟩
    · rw [uniqueStringsAux, if_neg hv]
      constructor
      · intro h
        rcases List.mem_cons.mp h with rfl | h
        · exact ⟨List.mem_cons_self _ _, hv⟩
        · obtain ⟨h1, h2⟩ := (ih (v :: seen) x).mp h
          exact ⟨List.mem_cons_of_mem _ h1,
            fun hc => h2 (List.mem_cons_of_mem _ hc)⟩
      · rintro ⟨h1, h2⟩
        rcases List.mem_cons.mp h1 with rfl | h1
        · exact List.mem_cons_self _ _
        · by_cases hxv : x = v
          · subst hxv
            exact List.mem_cons_self _ _
          · exact List.mem_cons_of_mem _ ((ih (v :: seen) x).mpr
              ⟨h1, fun hc => (List.mem_cons.mp hc).elim hxv h2⟩)

/-- `uniqueStrings` preserves membership. -/
theorem mem_uniqueStrings (l : List String) (x : String) :
    x ∈ uniqueStrings l ↔ x ∈ l := by
  rw [uniqueStrings, mem_uniqueStringsAux]
  simp

/-- Reading an association list after an append-update. -/
theorem lookupStrs_assocAppend (m : List (String × List String)) (k v p : String) :
    lookupStrs (assocAppend m k v) p =
      if p = k then lookupStrs m p ++ [v] else lookupStrs m p := by
  induction m with
  | nil =>
    by_cases hpk : p = k
    · subst hpk
      simp [assocAppend, lookupStrs, List.find?]
    · have hf : (k == p) = false := beq_eq_false_iff_ne.mpr (Ne.symm hpk)
      simp [assocAppend, lookupStrs, List.find?, hf, hpk]
  | cons e rest ih =>
    obtain ⟨k', vs⟩ := e
    by_cases hk : k' = k
    · subst hk
      by_cases hpk : p = k'
      · subst hpk
        simp [assocAppend, lookupStrs, List.find?]
      · have hf : (k' == p) = false := beq_eq_false_iff_ne.mpr (Ne.symm hpk)
        simp [assocAppend, lookupStrs, List.find?, hf, hpk]
    · have hf : (k' == k) = false := beq_eq_false_iff_ne.mpr hk
      by_cases hpk : p = k'
      · subst hpk
        have hpk2 : ¬ p = k := hk
        simp [assocAppend, lookupStrs, List.find?, hf, hpk2]
      · have hf2 : (k' == p) = false := beq_eq_false_iff_ne.mpr (Ne.symm hpk)
        have ih2 := ih
        simp only [assocAppend, hf, Bool.false_eq_true, if_false, lookupStrs,
          List.find?, hf2] at ih2 ⊢
        exact ih2

/-- Reading the entry-wise deduplicated association list. -/
theorem lookupStrs_map_unique (m : List (String × List String)) (p : String) :
    lookupStrs (m.map (fun e => (e.1, uniqueStrings e.2))) p =
      uniqueStrings (lookupStrs m p) := by
  induction m with
  | nil => simp [lookupStrs, uniqueStrings, uniqueStringsAux]
  | cons e rest ih =>
    obtain ⟨k, vs⟩ := e
    by_cases hpk : k = p
    · subst hpk
      simp [lookupStrs, List.find?]
    · have hf : (k == p) = false := beq_eq_false_iff_ne.mpr hpk
      simp only [List.map_cons, lookupStrs, List.find?, hf] at ih ⊢
      exact ih

/-- Membership after registering one name under a list of packages. -/
theorem innerFold_mem (nm : String) :
    ∀ (deps : List String) (m : List (String × List String)) (p name : String),
      (name ∈ lookupStrs (deps.foldl (fun m dep => assocAppend m dep nm) m) p ↔
        name ∈ lookupStrs m p ∨ (name = nm ∧ p ∈ deps)) := by
  intro deps
  induction deps with
  | nil => intro m p name; simp
  | cons d rest ih =>
    intro m p name
    rw [List.foldl_cons, ih, lookupStrs_assocAppend]
    by_cases hpd : p = d
    · rw [if_pos hpd]
      simp only [List.mem_append, List.mem_singleton, List.mem_cons]
      tauto
    · rw [if_neg hpd]
      simp only [List.mem_cons]
      tauto

/-- Membership in the reverse-dependency map built by
`buildReverseDependencies`: a name is registered under `p` exactly when some
resource of that name has a non-empty package equal to `p` or transitively
depending on `p`. -/
theorem mem_buildReverseDeps (resources : List Resource) (g : DependencyGraph)
    (p name : String) :
    name ∈ lookupStrs (buildReverseDependencies resources g) p ↔
      ∃ r ∈ resources, r.pkg ≠ "" ∧ r.name = name ∧
        (p = r.pkg ∨ p ∈ GetAllDeps g r.pkg) := by
  unfold buildReverseDependencies
  rw [lookupStrs_map_unique, mem_uniqueStrings]
  suffices h : ∀ (rs : List Resource) (m : List (String × List String)),
      name ∈ lookupStrs (rs.foldl
        (fun m resource =>
          if resource.pkg == "" then m
          else
            (GetAllDeps g resource.pkg).foldl
              (fun m dep => assocAppend m dep resource.name)
              (assocAppend m resource.pkg resource.name))
        m) p ↔
      name ∈ lookupStrs m p ∨ ∃ r ∈ rs, r.pkg ≠ "" ∧ r.name = name ∧
        (p = r.pkg ∨ p ∈ GetAllDeps g r.pkg) by
    rw [h resources []]
    simp [lookupStrs, List.find?]
  intro rs
  induction rs with
  | nil => intro m; simp
  | cons r rest ih =>
    intro m
    rw [List.foldl_cons]
    by_cases hpkg : r.pkg = ""
    · rw [if_pos (by simpa using hpkg), ih]
      constructor
      · rintro (h | ⟨r', hr', hx⟩)
        · exact Or.inl h
        · exact Or.inr ⟨r', List.mem_cons_of_mem _ hr', hx⟩
      · rintro (h | ⟨r', hr', hne, hx⟩)
        · exact Or.inl h
        · rcases List.mem_cons.mp hr' with heq | hr2
          · rw [heq] at hne
            exact absurd hpkg hne
          · exact Or.inr ⟨r', hr2, hne, hx⟩
    · rw [if_neg (by simpa using hpkg), ih, innerFold_mem, lookupStrs_assocAppend]
      constructor
      · rintro ((h | h) | h)
        · by_cases hpp : p = r.pkg
          · rw [if_pos hpp] at h
            rcases List.mem_append.mp h with h2 | h2
            · exact Or.inl h2
            · have hnm : name = r.name := by simpa using h2
              exact Or.inr ⟨r, List.mem_cons_self _ _, hpkg, hnm.symm, Or.inl hpp⟩
          · rw [if_neg hpp] at h
            exact Or.inl h
        · exact Or.inr ⟨r, List.mem_cons_self _ _, hpkg, h.1.symm, Or.inr h.2⟩
        · obtain ⟨r', hr', hne, hnm, hcase⟩ := h
          exact Or.inr ⟨r', List.mem_cons_of_mem _ hr', hne, hnm, hcase⟩
      · rintro (h | ⟨r', hr', hne, hnm, hcase⟩)
        · refine Or.inl (Or.inl ?_)
          by_cases hpp : p = r.pkg
          · rw [if_pos hpp]
            exact List.mem_append_left _ h
          · rw [if_neg hpp]
            exact h
        · rcases List.mem_cons.mp hr' with heq | hr2
          · subst heq
            rcases hcase with hpp | hdep
            · refine Or.inl (Or.inl ?_)
              rw [if_pos hpp]
              exact List.mem_append_right _ (by simp [hnm])
            · exact Or.inl (Or.inr ⟨hnm.symm, hdep⟩)
          · exact Or.inr ⟨r', hr2, hne, hnm, hcase⟩

/-- Two listed resources with the same name are equal when names are unique. -/
theorem resource_eq_of_name_eq {resources : List Resource}
    (hnd : (resources.map (fun r => r.name)).Nodup) {r r' : Resource}
    (hr : r ∈ resources) (hr' : r' ∈ resources) (hname : r.name = r'.name) :
    r = r' := by
  classical
  have := List.inj_on_of_nodup_map hnd
  exact this hr hr' hname

/-- Claim C4: after `Analyze()`, a resource with a non-empty implementation
package is registered in the reverse-dependency index under `p` exactly when
`p` is its implementation package or one of that package's transitive
dependencies, provided resource names are unique (the uniqueness the system
assumes). -/
theorem c4_reverseDeps_consistent (cfg : Config) (resources : List Resource)
    (g : DependencyGraph) (p : String) (r : Resource)
    (hnd : (resources.map (fun r => r.name)).Nodup) (hr : r ∈ resources)
    (hp : r.pkg ≠ "") :
    r.name ∈ GetReverseDeps (analyze cfg resources g) p ↔
      (p = r.pkg ∨ p ∈ GetAllDeps g r.pkg) := by
  unfold GetReverseDeps analyze
  rw [mem_buildReverseDeps]
  constructor
  · rintro ⟨r', hr', hne, hnm, hcase⟩
    have := resource_eq_of_name_eq hnd hr hr' hnm.symm
    subst this
    exact hcase
  · intro h
    exact ⟨r, hr, hp, rfl, h⟩

/-! ## Theorems: shape of reported affected resources -/

/-- Reachability from transitive-dependency membership. -/
theorem reachStar_of_mem_allDeps {g : DependencyGraph} {q p : String}
    (h : p ∈ GetAllDeps g q) : ReachStar g q p := by
  obtain ⟨u, ⟨n, hn⟩, hd⟩ := reachPlus_of_mem_GetAllDeps h
  exact ⟨n + 1, ReachN.tail hn hd⟩

/-- Any entry produced by the candidate loop either was in the accumulator or
records a looked-up resource with the canonical reason, affected package and
dependency chain. -/
theorem candFold_mem (env : Env) (cfg : Config) (g : DependencyGraph)
    (resources : List Resource) (pkgPath : String) (info : ChangedSymbolInfo) :
    ∀ (ns : List String) (acc : List (String × AffectedResource))
      (e : String × AffectedResource),
      e ∈ ns.foldl (candStep env cfg g resources pkgPath info) acc →
      e ∈ acc ∨ (e.1 ∈ ns ∧ ∃ resource,
        getResourceByName resources e.1 = some resource ∧
        e.2 = { resource := resource, reason := "depends on " ++ pkgPath,
                affectedPackage := pkgPath,
                dependencyChain := (getDependencyChain g resource.pkg pkgPath).getD [] }) := by
  intro ns
  induction ns with
  | nil => intro acc e he; exact Or.inl he
  | cons n ns ih =>
    intro acc e he
    rw [List.foldl_cons] at he
    rcases ih _ e he with h | ⟨h1, h2⟩
    · unfold candStep at h
      split at h
      · exact Or.inl h
      · split at h
        · exact Or.inl h
        · rename_i resource hres
          split at h
          · rcases List.mem_append.mp h with h | h
            · exact Or.inl h
            · have he2 := List.mem_singleton.mp h
              subst he2
              exact Or.inr ⟨List.mem_cons_self _ _, resource, hres, rfl⟩
          · exact Or.inl h
    · exact Or.inr ⟨List.mem_cons_of_mem _ h1, h2⟩

/-- Any entry of the package-group fold either was in the accumulator or
belongs to some group, with its name registered under the group package. -/
theorem groupFold_mem (env : Env) (cfg : Config) (g : DependencyGraph)
    (resources : List Resource) (reverseDeps : List (String × List String)) :
    ∀ (gs : List (String × List FileInfo)) (acc : List (String × AffectedResource))
      (e : String × AffectedResource),
      e ∈ gs.foldl
        (fun acc grp => processCandidates env cfg g resources reverseDeps acc grp.1
          (packageChangedInfo env grp.2)) acc →
      e ∈ acc ∨ ∃ grp ∈ gs, e.1 ∈ lookupStrs reverseDeps grp.1 ∧ ∃ resource,
        getResourceByName resources e.1 = some resource ∧
        e.2 = { resource := resource, reason := "depends on " ++ grp.1,
                affectedPackage := grp.1,
                dependencyChain := (getDependencyChain g resource.pkg grp.1).getD [] } := by
  intro gs
  induction gs with
  | nil => intro acc e he; exact Or.inl he
  | cons grp gs ih =>
    intro acc e he
    rw [List.foldl_cons] at he
    rcases ih _ e he with h | ⟨grp', hgrp', hx⟩
    · unfold processCandidates at h
      rcases candFold_mem env cfg g resources grp.1 (packageChangedInfo env grp.2) _ _ _ h
        with h | ⟨h1, h2⟩
      · exact Or.inl h
      · exact Or.inr ⟨grp, List.mem_cons_self _ _, h1, h2⟩
    · exact Or.inr ⟨grp', List.mem_cons_of_mem _ hgrp', hx⟩

/-- Every reported affected resource comes from a reverse-dependency entry of
some changed package, names a looked-up resource, and carries the canonical
reason, affected package and dependency chain. -/
theorem mem_GetAffectedResources_shape (env : Env) (a : Analyzer)
    (changedFiles : List String) (ar : AffectedResource)
    (h : ar ∈ GetAffectedResources env a changedFiles) :
    ∃ pkgPath name resource,
      name ∈ lookupStrs a.reverseDeps pkgPath ∧
      getResourceByName a.resources name = some resource ∧
      ar = { resource := resource, reason := "depends on " ++ pkgPath,
             affectedPackage := pkgPath,
             dependencyChain := (getDependencyChain a.graph resource.pkg pkgPath).getD [] } := by
  unfold GetAffectedResources at h
  obtain ⟨e, he, rfl⟩ := List.mem_map.mp h
  rcases groupFold_mem env a.config a.graph a.resources a.reverseDeps _ _ _ he
    with h | ⟨grp, _, h1, resource, h2, h3⟩
  · simp at h
  · exact ⟨grp.1, e.1, resource, h1, h2, h3⟩

/-- The resource looked up by name is listed and has that name. -/
theorem getResourceByName_some {resources : List Resource} {name : String}
    {resource : Resource} (h : getResourceByName resources name = some resource) :
    resource ∈ resources ∧ resource.name = name := by
  unfold getResourceByName at h
  refine ⟨List.mem_of_find?_eq_some h, ?_⟩
  have := List.find?_some h
  simpa using this

/-- Claim C5: under the name-uniqueness assumption, every affected resource
reported by `GetAffectedResources` on an analyzed project carries a
dependency chain that starts at the resource implementation package, ends at
the affected package, follows direct import edges, and is a shortest such
chain (computed by breadth-first search over `GetDirectDeps`). -/
theorem c5_dependency_chain (env : Env) (cfg : Config) (resources : List Resource)
    (g : DependencyGraph) (changedFiles : List String) (ar : AffectedResource)
    (hnd : (resources.map (fun r => r.name)).Nodup)
    (h : ar ∈ GetAffectedResources env (analyze cfg resources g) changedFiles) :
    IsPath g ar.dependencyChain ar.resource.pkg ar.affectedPackage ∧
      ∀ l, IsPath g l ar.resource.pkg ar.affectedPackage →
        ar.dependencyChain.length ≤ l.length := by
  obtain ⟨pkgPath, name, resource, hmem, hfind, rfl⟩ :=
    mem_GetAffectedResources_shape env _ changedFiles ar h
  have hrd : (analyze cfg resources g).reverseDeps = buildReverseDependencies resources g :=
    rfl
  rw [hrd, mem_buildReverseDeps] at hmem
  obtain ⟨r', hr', hne', hnm', hcase⟩ := hmem
  have hfind2 : getResourceByName (analyze cfg resources g).resources name = some resource :=
    hfind
  obtain ⟨hres, hrname⟩ := getResourceByName_some hfind2
  have hreq : resource = r' :=
    resource_eq_of_name_eq hnd hres hr' (by rw [hrname, hnm'])
  subst hreq
  have hreach : ReachStar g resource.pkg pkgPath := by
    rcases hcase with h | h
    · subst h
      exact ⟨0, ReachN.refl _⟩
    · exact reachStar_of_mem_allDeps h
  obtain ⟨l0, hl0⟩ := getDependencyChain_isSome g hreach
  have hgraph : (analyze cfg resources g).graph = g := rfl
  rw [hgraph, hl0]
  constructor
  · exact getDependencyChain_valid g resource.pkg pkgPath l0 hl0
  · exact getDependencyChain_shortest g resource.pkg pkgPath l0 hl0

/-! ## Theorems: monotonicity of the resolver over added files -/

/-- One candidate step only appends to the affected map. -/
theorem candStep_append (env : Env) (cfg : Config) (g : DependencyGraph)
    (resources : List Resource) (pkgPath : String) (info : ChangedSymbolInfo)
    (acc : List (String × AffectedResource)) (name : String) :
    ∃ ex, candStep env cfg g resources pkgPath info acc name = acc ++ ex := by
  unfold candStep
  split
  · exact ⟨[], by simp⟩
  · split
    · exact ⟨[], by simp⟩
    · split
      · exact ⟨_, rfl⟩
      · exact ⟨[], by simp⟩

/-- The candidate loop only appends to the affected map. -/
theorem candFold_prefix (env : Env) (cfg : Config) (g : DependencyGraph)
    (resources : List Resource) (pkgPath : String) (info : ChangedSymbolInfo) :
    ∀ (ns : List String) (acc : List (String × AffectedResource)),
      ∃ ex, ns.foldl (candStep env cfg g resources pkgPath info) acc = acc ++ ex := by
  intro ns
  induction ns with
  | nil => intro acc; exact ⟨[], by simp⟩
  | cons n ns ih =>
    intro acc
    rw [List.foldl_cons]
    obtain ⟨ex1, hex1⟩ := candStep_append env cfg g resources pkgPath info acc n
    rw [hex1]
    obtain ⟨ex2, hex2⟩ := ih (acc ++ ex1)
    exact ⟨ex1 ++ ex2, by rw [hex2, List.append_assoc]⟩

/-- The package-group fold only appends to the affected map. -/
theorem groupFold_prefix (env : Env) (cfg : Config) (g : DependencyGraph)
    (resources : List Resource) (reverseDeps : List (String × List String)) :
    ∀ (gs : List (String × List FileInfo)) (acc : List (String × AffectedResource)),
      ∃ ex, gs.foldl
        (fun acc grp => processCandidates env cfg g resources reverseDeps acc grp.1
          (packageChangedInfo env grp.2)) acc = acc ++ ex := by
  intro gs
  induction gs with
  | nil => intro acc; exact ⟨[], by simp⟩
  | cons grp gs ih =>
    intro acc
    rw [List.foldl_cons]
    obtain ⟨ex1, hex1⟩ := candFold_prefix env cfg g resources grp.1
      (packageChangedInfo env grp.2) (lookupStrs reverseDeps grp.1) acc
    rw [show processCandidates env cfg g resources reverseDeps acc grp.1
          (packageChangedInfo env grp.2) = acc ++ ex1 from hex1]
    obtain ⟨ex2, hex2⟩ := ih (acc ++ ex1)
    exact ⟨ex1 ++ ex2, by rw [hex2, List.append_assoc]⟩

/-- Appending under a fresh key extends the association list at the end. -/
theorem assocAppend_fresh {α : Type} (m : List (String × List α)) (k : String) (v : α)
    (h : k ∉ m.map Prod.fst) : assocAppend m k v = m ++ [(k, [v])] := by
  induction m with
  | nil => rfl
  | cons e rest ih =>
    obtain ⟨k', vs⟩ := e
    have hk : k' ≠ k := by
      intro hc
      exact h (by simp [hc])
    rw [assocAppend, if_neg (by simpa using hk)]
    rw [ih (fun hc => h (List.mem_cons_of_mem _ hc))]
    simp

/-- The keys produced by an append-update. -/
theorem assocAppend_keys {α : Type} (m : List (String × List α)) (k : String) (v : α) :
    ∀ x ∈ (assocAppend m k v).map Prod.fst, x ∈ m.map Prod.fst ∨ x = k := by
  induction m with
  | nil => intro x hx; simp [assocAppend] at hx; exact Or.inr hx
  | cons e rest ih =>
    obtain ⟨k', vs⟩ := e
    intro x hx
    by_cases hk : k' == k
    · rw [assocAppend, if_pos hk] at hx
      simp at hx
      rcases hx with hx | hx
      · exact Or.inl (by simp [hx])
      · exact Or.inl (by simp [hx])
    · rw [assocAppend, if_neg hk] at hx
      simp at hx
      rcases hx with hx | hx
      · exact Or.inl (by simp [hx])
      · rcases ih x (by simpa using hx) with h | h
        · exact Or.inl (by simp at h ⊢; exact Or.inr h)
        · exact Or.inr h

/-- Every key of the file grouping is the package of one of the files. -/
theorem groupFiles_keys (env : Env) (cfg : Config) :
    ∀ (files : List String) (acc : List (String × List FileInfo)) (k : String),
      k ∈ (files.foldl
        (fun acc file =>
          let pkgPath := fileToPackage env cfg file
          if pkgPath = "" then acc
          else
            let absPath :=
              if isAbsPath file then file
              else joinPath cfg.projectRoot (trimPre file cfg.pathPrefix)
            assocAppend acc pkgPath
              { absPath := absPath, origPath := file,
                isInfrastructure := isInfrastructureFile cfg file })
        acc).map Prod.fst →
      k ∈ acc.map Prod.fst ∨ ∃ x ∈ files, fileToPackage env cfg x = k := by
  intro files
  induction files with
  | nil => intro acc k hk; exact Or.inl hk
  | cons f files ih =>
    intro acc k hk
    rw [List.foldl_cons] at hk
    rcases ih _ k hk with h | ⟨x, hx, hxk⟩
    · by_cases hpkg : fileToPackage env cfg f = ""
      · simp only [hpkg, if_pos] at h
        simp at h
        obtain ⟨vs, hvs⟩ := h
        exact Or.inl (List.mem_map.mpr ⟨(k, vs), hvs, rfl⟩)
      · simp only [if_neg hpkg] at h
        rcases assocAppend_keys _ _ _ k h with h2 | h2
        · exact Or.inl h2
        · exact Or.inr ⟨f, List.mem_cons_self _ _, h2.symm⟩
    · exact Or.inr ⟨x, List.mem_cons_of_mem _ hx, hxk⟩

/-- Claim C2 (amended): adding a changed file preserves every reported
affected resource provided the added file maps to no package or to a package
different from that of every file already in the set (adding a file to an
already-changed package can rewrite that package's changed-symbol summary
and so remove verdicts). -/
theorem c2_affected_monotone (env : Env) (a : Analyzer) (files : List String)
    (f : String) (ar : AffectedResource)
    (hf : fileToPackage env a.config f = "" ∨
      ∀ x ∈ files, fileToPackage env a.config x ≠ fileToPackage env a.config f)
    (h : ar ∈ GetAffectedResources env a files) :
    ar ∈ GetAffectedResources env a (files ++ [f]) := by
  unfold GetAffectedResources at h ⊢
  unfold groupFiles at h ⊢
  rw [List.foldl_append] at *
  by_cases hpkg : fileToPackage env a.config f = ""
  · simp only [List.foldl_cons, List.foldl_nil, hpkg, if_pos]
    exact h
  · have hfresh : fileToPackage env a.config f ∉
        (List.foldl
          (fun acc file =>
            let pkgPath := fileToPackage env a.config file
            if pkgPath = "" then acc
            else
              let absPath :=
                if isAbsPath file then file
                else joinPath a.config.projectRoot (trimPre file a.config.pathPrefix)
              assocAppend acc pkgPath
                ({ absPath := absPath, origPath := file,
                   isInfrastructure := isInfrastructureFile a.config file } : FileInfo))
          ([] : List (String × List FileInfo)) files).map Prod.fst := by
      intro hc
      rcases groupFiles_keys env a.config files [] _ hc with h2 | ⟨x, hx, hxk⟩
      · simp at h2
      · rcases hf with hf | hf
        · exact hpkg hf
        · exact hf x hx hxk
    simp only [List.foldl_cons, List.foldl_nil, if_neg hpkg]
    rw [assocAppend_fresh _ _ _ hfresh]
    rw [List.foldl_append]
    obtain ⟨e, he, rfl⟩ := List.mem_map.mp h
    simp only [List.foldl_cons, List.foldl_nil]
    unfold processCandidates
    obtain ⟨ex, hex⟩ := candFold_prefix env a.config a.graph a.resources _ _ _ _
    rw [hex]
    exact List.mem_map.mpr ⟨e, List.mem_append_left _ he, rfl⟩


/-! ## Concrete evaluation of the monotonicity scenario -/

/-- The transitive dependencies of the gateway package in graph `gM`. -/
theorem getAllDeps_gM_gw : GetAllDeps gM "m/gw" = ["m/svc"] := by
  simp [GetAllDeps, collect, GetDirectDeps, gM, List.find?]

/-- The dependency chain from the gateway to the service package. -/
theorem chain_gM_gw_svc : getDependencyChain gM "m/gw" "m/svc" = some ["m/gw", "m/svc"] := by
  simp [getDependencyChain, bfs, GetDirectDeps, gM, List.find?]

/-- The analyzed state of the monotonicity scenario, fully evaluated. -/
theorem stM_eval : stM =
    { config := cfgM, graph := gM, resources := [resGw],
      reverseDeps := [("m/gw", ["gw"]), ("m/svc", ["gw"])] } := by
  simp [stM, analyze, buildReverseDependencies, getAllDeps_gM_gw, resGw, assocAppend,
    uniqueStrings, uniqueStringsAux]

/-- Direct dependencies of the gateway package in `gM`. -/
theorem gd_gM_gw : GetDirectDeps gM "m/gw" = ["m/svc"] := by decide

/-- Direct dependencies of the service package in `gM`. -/
theorem gd_gM_svc : GetDirectDeps gM "m/svc" = [] := by decide

/-- Ground evaluation of the package of `svc/a.go` under module `m`. -/
theorem dirJoin_svcA : ("m/" ++ joinSlash (splitSlash "svc/a.go").dropLast) = "m/svc" := by
  decide

/-- Ground evaluation of the package of `svc/b.go` under module `m`. -/
theorem dirJoin_svcB : ("m/" ++ joinSlash (splitSlash "svc/b.go").dropLast) = "m/svc" := by
  decide

/-- Changing only `svc/a.go` reports the gateway resource. -/
theorem affC2_single : GetAffectedResources envC2 stM ["svc/a.go"] = [afC2] := by
  rw [stM_eval]
  simp +decide [GetAffectedResources, groupFiles, fileToPackage, dirOf, trimPre, joinPath,
    isAbsPath, isInfrastructureFile, assocAppend, processCandidates, candStep,
    lookupStrs, getResourceByName, packageChangedInfo, summarizeFiles, summarizeStep,
    uniqueStrings, uniqueStringsAux, uniqueInterfaceMethods, uniqueInterfaceMethodsAux,
    isResourceAffectedBySymbols, containsSub, isAggregatorProviderPackage, aggLoop,
    pkgWitness, directImportersOf, importerWitness, importerMethodWitness,
    CheckSymbolUsage, CheckMethodCallUsage, okBool, GetPackageDir,
    getAllDeps_gM_gw, chain_gM_gw_svc, gd_gM_gw, gd_gM_svc, dirJoin_svcA, dirJoin_svcB,
    envC2, cfgM, resGw, afC2, imFetch, List.find?]

/-- Changing `svc/a.go` and `svc/b.go` together reports nothing: the interface
method `Client.Fetch` removes the symbol `Client` from the package summary and
the method-call witness fails. -/
theorem affC2_pair : GetAffectedResources envC2 stM ["svc/a.go", "svc/b.go"] = [] := by
  rw [stM_eval]
  simp +decide [GetAffectedResources, groupFiles, fileToPackage, dirOf, trimPre, joinPath,
    isAbsPath, isInfrastructureFile, assocAppend, processCandidates, candStep,
    lookupStrs, getResourceByName, packageChangedInfo, summarizeFiles, summarizeStep,
    uniqueStrings, uniqueStringsAux, uniqueInterfaceMethods, uniqueInterfaceMethodsAux,
    isResourceAffectedBySymbols, containsSub, isAggregatorProviderPackage, aggLoop,
    pkgWitness, directImportersOf, importerWitness, importerMethodWitness,
    CheckSymbolUsage, CheckMethodCallUsage, okBool, GetPackageDir,
    getAllDeps_gM_gw, chain_gM_gw_svc, gd_gM_gw, gd_gM_svc, dirJoin_svcA, dirJoin_svcB,
    envC2, cfgM, resGw, imFetch, List.find?]

/-- Claim C2, counterexample: on the monotonicity scenario the gateway resource
is reported for the change set `[svc/a.go]` but the larger change set
`[svc/a.go, svc/b.go]` reports nothing, so adding a changed file can remove
reported resources. -/
theorem c2_counterexample :
    GetAffectedResources envC2 stM ["svc/a.go"] = [afC2] ∧
    GetAffectedResources envC2 stM ["svc/a.go", "svc/b.go"] = [] :=
  ⟨affC2_single, affC2_pair⟩

/-- Witness for the amended C2 monotonicity theorem: adding a non-Go file to
the change set preserves the reported gateway resource. -/
theorem c2_witness :
    afC2 ∈ GetAffectedResources envC2 stM (["svc/a.go"] ++ ["docs/readme.md"]) :=
  c2_affected_monotone envC2 stM ["svc/a.go"] "docs/readme.md" afC2
    (Or.inl (by decide))
    (by rw [affC2_single]; exact List.mem_singleton.mpr rfl)

/-- Witness for C4 at the monotonicity scenario: the gateway resource is
registered under the service package it transitively imports. -/
theorem c4_witness :
    "gw" ∈ GetReverseDeps (analyze cfgM [resGw] gM) "m/svc" ↔
      ("m/svc" = resGw.pkg ∨ "m/svc" ∈ GetAllDeps gM resGw.pkg) :=
  c4_reverseDeps_consistent cfgM [resGw] gM "m/svc" resGw (by decide) (by decide) (by decide)

/-- Witness for C5 at the monotonicity scenario: the reported chain of the
gateway resource is a shortest import path. -/
theorem c5_witness :
    IsPath gM afC2.dependencyChain afC2.resource.pkg afC2.affectedPackage ∧
      ∀ l, IsPath gM l afC2.resource.pkg afC2.affectedPackage →
        afC2.dependencyChain.length ≤ l.length :=
  c5_dependency_chain envC2 cfgM [resGw] gM ["svc/a.go"] afC2 (by decide)
    (by rw [show analyze cfgM [resGw] gM = stM from rfl, affC2_single]
        exact List.mem_singleton.mpr rfl)


/-! ## Concrete evaluation of the infrastructure scenario -/

/-- The transitive dependencies of the gateway package in graph `gM3`. -/
theorem getAllDeps_gM3_gw : GetAllDeps gM3 "m/gw" = ["m/gw/sqlc"] := by
  simp [GetAllDeps, collect, GetDirectDeps, gM3, List.find?]

/-- The dependency chain from the gateway to its `sqlc` subpackage. -/
theorem chain_gM3_gw_sqlc :
    getDependencyChain gM3 "m/gw" "m/gw/sqlc" = some ["m/gw", "m/gw/sqlc"] := by
  simp [getDependencyChain, bfs, GetDirectDeps, gM3, List.find?]

/-- Direct dependencies of the gateway package in `gM3`. -/
theorem gd_gM3_gw : GetDirectDeps gM3 "m/gw" = ["m/gw/sqlc"] := by decide

/-- Direct dependencies of the `sqlc` subpackage in `gM3`. -/
theorem gd_gM3_sqlc : GetDirectDeps gM3 "m/gw/sqlc" = [] := by decide

/-- Ground evaluation of the package of `gw/sqlc/models.go` under module `m`. -/
theorem dirJoin_sqlc :
    ("m/" ++ joinSlash (splitSlash "gw/sqlc/models.go").dropLast) = "m/gw/sqlc" := by decide

/-- The analyzed state of the infrastructure scenario, fully evaluated. -/
theorem stM3_eval : stM3 =
    { config := cfgM, graph := gM3, resources := [resGw],
      reverseDeps := [("m/gw", ["gw"]), ("m/gw/sqlc", ["gw"])] } := by
  simp [stM3, analyze, buildReverseDependencies, getAllDeps_gM3_gw, resGw, assocAppend,
    uniqueStrings, uniqueStringsAux]

/-- Claim C3, divergence witness: the only changed file of the run is the
auto-generated infrastructure file `gw/sqlc/models.go` (every symbol-use,
method-call and DI-type witness of the environment answers `false`), yet the
gateway resource is reported affected, through the bare same-package shortcut
of `isResourceAffectedBySymbols` (the changed package is a subpackage of the
resource package).  The specification requires infrastructure-only changes to
mark resources only through the symbol-use witness search. -/
theorem c3_infrastructure_shortcut :
    isInfrastructureFile cfgM "gw/sqlc/models.go" = true ∧
    (∀ a b c, envC3.checkSymbolUsageD a b c = .ok false) ∧
    (∀ a b c, envC3.checkMethodCallUsageD a b c = .ok false) ∧
    (∀ a b c d, envC3.checkSymbolUsesSymbolsD a b c d = .ok false) ∧
    (∀ a b c d, envC3.checkSymbolUsesInterfaceMethodsD a b c d = .ok false) ∧
    (∀ a b c, envC3.checkTypeUsage a b c = .ok false) ∧
    GetAffectedResources envC3 stM3 ["gw/sqlc/models.go"] = [afC3] := by
  refine ⟨by decide, fun a b c => rfl, fun a b c => rfl, fun a b c d => rfl,
    fun a b c d => rfl, fun a b c => rfl, ?_⟩
  rw [stM3_eval]
  simp +decide [GetAffectedResources, groupFiles, fileToPackage, dirOf, trimPre, joinPath,
    isAbsPath, isInfrastructureFile, assocAppend, processCandidates, candStep,
    lookupStrs, getResourceByName, packageChangedInfo, summarizeFiles, summarizeStep,
    uniqueStrings, uniqueStringsAux, uniqueInterfaceMethods, uniqueInterfaceMethodsAux,
    isResourceAffectedBySymbols, containsSub, isAggregatorProviderPackage, aggLoop,
    pkgWitness, directImportersOf, importerWitness, importerMethodWitness,
    CheckSymbolUsage, CheckMethodCallUsage, okBool, GetPackageDir,
    getAllDeps_gM3_gw, chain_gM3_gw_sqlc, gd_gM3_gw, gd_gM3_sqlc, dirJoin_sqlc,
    envC3, cfgM, resGw, afC3, imFetch, List.find?]


/-! ## Queries on an analyzer before analysis (claim C6) -/

/-- Claim C6 (amended): no query method of the analyzer fails, and before
`Analyze()` has run every query returns an empty result: `NewAnalyzer` starts
with no resources, an empty graph and an empty reverse-dependency map, and
each query method is total on that state (the source has no "not analyzed"
error path; spec section 7 itself states that query methods do not fail). -/
theorem c6_unanalyzed_queries (cfg : Config) (env : Env) (files : List String) (p : String) :
    GetResources (NewAnalyzer cfg) = [] ∧
    GetReverseDeps (NewAnalyzer cfg) p = [] ∧
    GetAffectedResources env (NewAnalyzer cfg) files = [] ∧
    GetAffectedResourcesByPackage (NewAnalyzer cfg) p = [] := by
  refine ⟨rfl, rfl, ?_, rfl⟩
  unfold GetAffectedResources
  have h : ∀ (gs : List (String × List FileInfo)) (acc : List (String × AffectedResource)),
      List.foldl (fun acc e =>
        processCandidates env (NewAnalyzer cfg).config (NewAnalyzer cfg).graph
          (NewAnalyzer cfg).resources (NewAnalyzer cfg).reverseDeps acc e.1
          (packageChangedInfo env e.2)) acc gs = acc := by
    intro gs
    induction gs with
    | nil => intro acc; rfl
    | cons e gs ih =>
      intro acc
      rw [List.foldl_cons]
      rw [show processCandidates env (NewAnalyzer cfg).config (NewAnalyzer cfg).graph
          (NewAnalyzer cfg).resources (NewAnalyzer cfg).reverseDeps acc e.1
          (packageChangedInfo env e.2) = acc from rfl]
      exact ih acc
  rw [h]
  rfl

/-- Claim C6, counterexample to the original claim: on a fresh analyzer every
query method succeeds and returns an empty value instead of failing with a
"not analyzed" error. -/
theorem c6_counterexample :
    GetResources (NewAnalyzer cfgM) = [] ∧
    GetReverseDeps (NewAnalyzer cfgM) "m/svc" = [] ∧
    GetAffectedResources envC2 (NewAnalyzer cfgM) ["svc/a.go"] = [] ∧
    GetAffectedResourcesByPackage (NewAnalyzer cfgM) "m/svc" = [] := by
  refine ⟨rfl, rfl, ?_, rfl⟩
  decide

/-! ## Diff-failure fallback (claim C7) -/

/-- One file step commutes with merging an already-accumulated summary in
front: `summarizeStep` only ever appends to the accumulator fields. -/
theorem summarizeStep_merge (env : Env) (a b : PkgSummary) (fi : FileInfo) :
    summarizeStep env (mergeSummary a b) fi = mergeSummary a (summarizeStep env b fi) := by
  unfold summarizeStep
  cases env.getChangedLines fi.origPath with
  | error e =>
    cases env.extractExportedSymbols fi.absPath with
    | error e2 => rfl
    | ok symbols =>
      cases hfi : fi.isInfrastructure <;> simp [hfi, mergeSummary, List.append_assoc]
  | ok changedLines =>
    by_cases hl : changedLines = []
    · simp only [if_pos hl]
      cases env.extractExportedSymbols fi.absPath with
      | error e2 => rfl
      | ok symbols =>
        cases hfi : fi.isInfrastructure <;> simp [hfi, mergeSummary, List.append_assoc]
    · simp only [if_neg hl]
      cases env.getChangedSymbolsDetailed fi.absPath changedLines with
      | error e2 =>
        cases env.extractExportedSymbols fi.absPath with
        | error e3 =>
          cases hfi : fi.isInfrastructure <;> simp [hfi, mergeSummary, List.append_assoc]
        | ok syms =>
          cases hfi : fi.isInfrastructure <;> simp [hfi, mergeSummary, List.append_assoc]
      | ok symbolInfo =>
        cases hfi : fi.isInfrastructure <;>
          simp [hfi, mergeSummary, List.append_assoc, Bool.or_assoc]

/-- The per-file loop commutes with merging an already-accumulated summary in
front. -/
theorem summarizeFold_merge (env : Env) (a : PkgSummary) :
    ∀ (l : List FileInfo) (b : PkgSummary),
      l.foldl (summarizeStep env) (mergeSummary a b) =
        mergeSummary a (l.foldl (summarizeStep env) b) := by
  intro l
  induction l with
  | nil => intro b; rfl
  | cons fi l ih =>
    intro b
    rw [List.foldl_cons, List.foldl_cons, summarizeStep_merge]
    exact ih (summarizeStep env b fi)

/-- Claim C7: when the diff source cannot report changed lines for a file
(an error or an empty line list) and the file is not infrastructure, the
per-package summary takes the file's full exported symbol list as that file's
changed-symbol contribution, and the remaining files are still processed
normally (the failure is not fatal to the run). -/
theorem c7_diff_fallback (env : Env) (fi : FileInfo) (rest : List FileInfo) (syms : List String)
    (hdiff : env.getChangedLines fi.origPath = .error () ∨
      env.getChangedLines fi.origPath = .ok [])
    (hext : env.extractExportedSymbols fi.absPath = .ok syms)
    (hinf : fi.isInfrastructure = false) :
    summarizeFiles env (fi :: rest) =
      mergeSummary
        { changedSymbols := syms, interfaceMethods := [], hasUnexportedChanges := false,
          infraSymbols := [] }
        (summarizeFiles env rest) := by
  have hstep : summarizeStep env
      { changedSymbols := [], interfaceMethods := [], hasUnexportedChanges := false,
        infraSymbols := [] } fi =
      { changedSymbols := syms, interfaceMethods := [], hasUnexportedChanges := false,
        infraSymbols := [] } := by
    unfold summarizeStep
    rcases hdiff with h | h <;> rw [h] <;> simp [hext, hinf]
  have hmain := summarizeFold_merge env
    { changedSymbols := syms, interfaceMethods := [], hasUnexportedChanges := false,
      infraSymbols := [] } rest
    { changedSymbols := [], interfaceMethods := [], hasUnexportedChanges := false,
      infraSymbols := [] }
  have hS : mergeSummary
      { changedSymbols := syms, interfaceMethods := [], hasUnexportedChanges := false,
        infraSymbols := [] }
      { changedSymbols := [], interfaceMethods := [], hasUnexportedChanges := false,
        infraSymbols := [] } =
      ({ changedSymbols := syms, interfaceMethods := [], hasUnexportedChanges := false,
         infraSymbols := [] } : PkgSummary) := by
    simp [mergeSummary]
  rw [hS] at hmain
  unfold summarizeFiles
  rw [List.foldl_cons, hstep]
  exact hmain

/-- Witness for C7: the diff of `a/x.go` fails, its full export list
`Foo, Bar` becomes the changed set, and `a/y.go` is still processed. -/
theorem c7_witness :
    summarizeFiles envC7 [fiC7, fiC7b] =
      mergeSummary
        { changedSymbols := ["Foo", "Bar"], interfaceMethods := [],
          hasUnexportedChanges := false, infraSymbols := [] }
        (summarizeFiles envC7 [fiC7b]) :=
  c7_diff_fallback envC7 fiC7 [fiC7b] ["Foo", "Bar"] (Or.inl rfl) rfl rfl

/-! ## Resource-name extraction (claim C9) -/

/-- An element that is not a `Use` string literal never changes the name
component of the extraction accumulator. -/
theorem cmdEltStep_fst (f : FieldValue → String) (acc : String × String × String) (e : CmdElt)
    (h : ∀ raw, e ≠ CmdElt.kv "Use" (FieldValue.strLit raw)) :
    (cmdEltStep f acc e).1 = acc.1 := by
  cases e with
  | other => rfl
  | kv key value =>
    simp only [cmdEltStep]
    by_cases hk : key = "Use"
    · subst hk
      rw [if_pos rfl]
      cases value with
      | strLit raw => exact absurd rfl (h raw)
      | other => rfl
    · rw [if_neg hk]
      by_cases h2 : key = "Short"
      · rw [if_pos h2]
        cases value <;> rfl
      · rw [if_neg h2]
        by_cases h3 : key = "RunE"
        · rw [if_pos h3]
        · rw [if_neg h3]

/-- A `Use` string literal overwrites the name component with the first
space-delimited token of the trimmed literal. -/
theorem cmdEltStep_use (f : FieldValue → String) (acc : String × String × String) (raw : String) :
    cmdEltStep f acc (CmdElt.kv "Use" (FieldValue.strLit raw)) =
      (firstSpaceToken (trimQuotes raw), acc.2.1, acc.2.2) := rfl

/-- Without a `Use` string literal the name component never changes. -/
theorem cmdFold_name_of_no_use (f : FieldValue → String) :
    ∀ (elts : List CmdElt) (acc : String × String × String),
      (∀ raw, CmdElt.kv "Use" (FieldValue.strLit raw) ∉ elts) →
      (elts.foldl (cmdEltStep f) acc).1 = acc.1 := by
  intro elts
  induction elts with
  | nil => intro acc h; rfl
  | cons e elts ih =>
    intro acc h
    rw [List.foldl_cons]
    rw [ih (cmdEltStep f acc e) (fun raw hc => h raw (List.mem_cons_of_mem _ hc))]
    exact cmdEltStep_fst f acc e
      (fun raw hc => h raw (by rw [hc]; exact List.mem_cons_self _ _))

/-- The name component of the extraction fold is either untouched or the first
space-delimited token of some `Use` string literal of the element list. -/
theorem cmdFold_name_cases (f : FieldValue → String) :
    ∀ (elts : List CmdElt) (acc : String × String × String),
      (elts.foldl (cmdEltStep f) acc).1 = acc.1 ∨
      ∃ raw, CmdElt.kv "Use" (FieldValue.strLit raw) ∈ elts ∧
        (elts.foldl (cmdEltStep f) acc).1 = firstSpaceToken (trimQuotes raw) := by
  intro elts
  induction elts with
  | nil => intro acc; exact Or.inl rfl
  | cons e elts ih =>
    intro acc
    rw [List.foldl_cons]
    rcases ih (cmdEltStep f acc e) with h | ⟨raw, hmem, heq⟩
    · rw [h]
      by_cases he : ∃ raw, e = CmdElt.kv "Use" (FieldValue.strLit raw)
      · obtain ⟨raw, rfl⟩ := he
        right
        refine ⟨raw, List.mem_cons_self _ _, ?_⟩
        rw [cmdEltStep_use]
      · left
        exact cmdEltStep_fst f acc e (fun raw hc => he ⟨raw, hc⟩)
    · exact Or.inr ⟨raw, List.mem_cons_of_mem _ hmem, heq⟩

/-- Claim C9 (amended): a recognized command literal with an extracted
resource has a non-empty name equal to the part of some `Use` string literal
value before its first SPACE character (`strings.SplitN(value, " ", 2)[0]`;
other whitespace such as tabs does not delimit the name), and a literal
without a `Use` string literal contributes no resource. -/
theorem c9_use_token (f : FieldValue → String) (elts : List CmdElt)
    (resourceType sourceFile : String) :
    (∀ r, extractResourceFromCompositeLit f elts resourceType sourceFile = some r →
      r.name ≠ "" ∧ ∃ raw, CmdElt.kv "Use" (FieldValue.strLit raw) ∈ elts ∧
        r.name = firstSpaceToken (trimQuotes raw)) ∧
    ((∀ raw, CmdElt.kv "Use" (FieldValue.strLit raw) ∉ elts) →
      extractResourceFromCompositeLit f elts resourceType sourceFile = none) := by
  constructor
  · intro r hr
    simp only [extractResourceFromCompositeLit] at hr
    by_cases hs : (elts.foldl (cmdEltStep f) ("", "", "")).1 = ""
    · rw [if_pos hs] at hr
      exact Option.noConfusion hr
    · rw [if_neg hs] at hr
      have hre := Option.some.inj hr
      subst hre
      refine ⟨hs, ?_⟩
      rcases cmdFold_name_cases f elts ("", "", "") with h | ⟨raw, hmem, heq⟩
      · exact absurd h hs
      · exact ⟨raw, hmem, heq⟩
  · intro h
    simp only [extractResourceFromCompositeLit]
    rw [if_pos (cmdFold_name_of_no_use f elts ("", "", "") h)]

/-- Claim C9, counterexample: a `Use` value containing a tab but no space
yields the whole value as the name, not the first whitespace-delimited
token. -/
theorem c9_counterexample :
    extractResourceFromCompositeLit (fun _ => "") eltsTab "api" "api.go" =
      some { name := "a\tb", rtype := "api", pkg := "", sourceFile := "api.go",
             description := "" } ∧
    firstWhitespaceToken (trimQuotes "\x22a\tb\x22") = "a" ∧
    ("a\tb" : String) ≠ "a" := by
  refine ⟨by decide, by decide, by decide⟩

/-- Witness for the amended C9 theorem at a well-formed command literal. -/
theorem c9_witness :
    ∃ raw, CmdElt.kv "Use" (FieldValue.strLit raw) ∈ eltsRun ∧
      ({ name := "run-job", rtype := "job", pkg := "", sourceFile := "job.go",
         description := "runs the job" } : Resource).name =
        firstSpaceToken (trimQuotes raw) :=
  ((c9_use_token (fun _ => "") eltsRun "job" "job.go").1
    { name := "run-job", rtype := "job", pkg := "", sourceFile := "job.go",
      description := "runs the job" } (by decide)).2

end ImpactAnalyzer
